import Mathlib

/-!
Shallow embedding of `swift/codegen/lib/schema/schema.py`: the schema.yml
format representation layer (property model, class model, doc normalizer,
class builder, grouped topological sorter and schema loader).

Python dictionaries are modelled as insertion-ordered association lists,
Python sets of strings as lists used only through membership, and Python
exceptions as `Except String`.
-/

namespace Schemapy

/-- Whitespace predicate backing Python's `str.strip` family (the ASCII
whitespace characters that occur in schema docstrings). -/
def pySpace (c : Char) : Bool := c.isWhitespace

/-- Python `str.lstrip()`: drop leading whitespace. -/
def pyLstrip (s : String) : String := String.mk (s.data.dropWhile pySpace)

/-- Python `str.rstrip()`: drop trailing whitespace. -/
def pyRstrip (s : String) : String := String.mk (List.rdropWhile pySpace s.data)

/-- Python `str.strip()`: drop whitespace on both sides. -/
def pyStrip (s : String) : String := pyLstrip (pyRstrip s)

/-- Python slicing `s[n:]` measured in characters. -/
def pySliceFrom (n : Nat) (s : String) : String := String.mk (s.data.drop n)

/-- Python `str.rstrip("_")`: drop every trailing underscore. -/
def pyRstripUnderscores (s : String) : String :=
  String.mk (List.rdropWhile (fun c => c = '_') s.data)

/-- Python `name.startswith("__")`. -/
def pyStartsDunder (s : String) : Bool :=
  match s.data with
  | '_' :: '_' :: _ => true
  | _ => false

/-- Splitter on newline characters used by `pySplitlines`; always returns at
least one (possibly empty) segment. -/
def splitNlChars : List Char → List (List Char)
  | [] => [[]]
  | c :: rest =>
    match splitNlChars rest with
    | [] => [[]]
    | h :: t => if c = '\n' then [] :: h :: t else (c :: h) :: t

/-- Python `str.splitlines()` restricted to `\n` line boundaries (the only
ones occurring in schema docstrings): no trailing empty line is produced. -/
def pySplitlines (s : String) : List String :=
  let parts := (splitNlChars s.data).map String.mk
  match parts.getLast? with
  | some lastPart => if lastPart = "" then parts.dropLast else parts
  | none => parts

/-- Lexicographic comparison of character lists by code point, as Python
compares strings. -/
def charListLe : List Char → List Char → Bool
  | [], _ => true
  | _ :: _, [] => false
  | a :: as, b :: bs =>
    if a.toNat < b.toNat then true
    else if b.toNat < a.toNat then false
    else charListLe as bs

/-- Python string comparison `a <= b` (lexicographic by code point). -/
def strLe (a b : String) : Bool := charListLe a.data b.data

/-- The doc normalizer `split_doc` of schema.py, inspired from PEP 257:
strip the first line, remove the common indent of the non-blank later lines,
strip every line's trailing whitespace and drop blank lines at both ends. -/
def split_doc (doc : String) : List String :=
  if doc = "" then []
  else
    match pySplitlines doc with
    | [] => []
    | first :: rest =>
      let indents := rest.filterMap
        (fun l => if pyLstrip l ≠ "" then some (l.length - (pyLstrip l).length) else none)
      let trimmed :=
        match indents with
        | [] => [pyStrip first]
        | i :: is =>
          pyStrip first :: rest.map (fun l => pyRstrip (pySliceFrom (is.foldl Nat.min i) l))
      List.dropWhile (fun l => decide (l = ""))
        (List.rdropWhile (fun l => decide (l = "")) trimmed)

/-- The doc normalizer restated from the specification's words: the first
line stripped of surrounding whitespace, the common indent of the non-blank
later lines removed from every later line, trailing whitespace stripped from
every line, and leading and trailing blank lines removed from the result.
Used only to compare against `split_doc`. -/
def split_doc_spec (doc : String) : List String :=
  match pySplitlines doc with
  | [] => []
  | first :: rest =>
    let commonIndent :=
      match rest.filterMap
        (fun l => if pyLstrip l ≠ "" then some (l.length - (pyLstrip l).length) else none) with
      | [] => 0
      | i :: is => is.foldl Nat.min i
    List.dropWhile (fun l => decide (l = ""))
      (List.rdropWhile (fun l => decide (l = ""))
        (pyStrip first :: rest.map (fun l => pyRstrip (pySliceFrom commonIndent l))))

/-- `split_doc` lifted to Python's optional docstring (`__doc__` is `None`
when absent, and `split_doc` treats falsy input as empty). -/
def splitDocOpt : Option String → List String
  | none => []
  | some s => split_doc s

/-- The kinds of `Property` (schema.py `Property.Kind`). -/
inductive PropertyKind where
  | SINGLE
  | REPEATED
  | OPTIONAL
  | REPEATED_OPTIONAL
  | PREDICATE
deriving DecidableEq

/-- One typed attribute of a class (schema.py `Property`). -/
structure Property where
  kind : PropertyKind
  name : Option String := none
  type : Option String := none
  is_child : Bool := false
  pragmas : List String := []
  doc : Option String := none
  description : List String := []
deriving DecidableEq

/-- A property specifier as dispatched over by `_make_property`: a type
reference (a string or a schema class, whose name `get_type_name` extracts),
the `predicate_marker` sentinel, an already built `Property`, or any other
object (carrying only its printed form). -/
inductive PropSpec where
  | typeRef (t : String)
  | marker
  | prop (p : Property)
  | illegal (shown : String)
deriving DecidableEq

/-- schema.py `_make_property`: singledispatch turning a specifier into a
`Property`; a bare type reference gives a SINGLE property with that type,
the predicate marker gives a PREDICATE property, a `Property` passes
through, anything else raises `Error`. -/
def _make_property : PropSpec → Except String Property
  | .typeRef t => .ok { kind := .SINGLE, type := some t }
  | .marker => .ok { kind := .PREDICATE }
  | .prop p => .ok p
  | .illegal shown => .error ("Illegal property specifier " ++ shown)

/-- The only `PropertyModifier` defined in schema.py is `_PropertyNamer`,
which stores the declared attribute name with trailing underscores stripped. -/
inductive PropertyModifier where
  | namer (declared : String)
deriving DecidableEq

/-- The in-place mutation a modifier performs (`_PropertyNamer.modify`). -/
def PropertyModifier.modify : PropertyModifier → Property → Property
  | .namer declared, p => { p with name := some (pyRstripUnderscores declared) }

/-- The modifier pipeline: `spec | m1 | ... | mk` materializes the specifier
through `_make_property` once, then applies each modifier in order
(`PropertyModifier.__ror__`). -/
def buildProperty (s : PropSpec) (ms : List PropertyModifier) : Except String Property :=
  match _make_property s with
  | .error e => .error e
  | .ok p => .ok (ms.foldl (fun q m => m.modify q) p)

deriving instance DecidableEq for Except

/-- schema.py `IpaInfo`: optional synthesized-class binding. -/
structure IpaInfo where
  from_class : Option String := none
  on_arguments : Option (List (String × String)) := none
deriving DecidableEq

/-- schema.py `Class`: one schema entity. -/
structure Class where
  name : String
  bases : List String := []
  derived : List String := []
  properties : List Property := []
  group : String := ""
  pragmas : List String := []
  ipa : Option IpaInfo := none
  doc : List String := []
  default_doc_name : Option String := none
deriving DecidableEq

/-- schema.py `Class.final`: a class is final when it has no derived classes. -/
def Class.final (c : Class) : Bool := c.derived.isEmpty

/-- schema.py `_check_type`: a present type reference must be known. -/
def _check_type (t : Option String) (known : List String) : Except String Unit :=
  match t with
  | some s => if s ∈ known then .ok () else .error ("Unknown type " ++ s)
  | none => .ok ()

/-- Sequencing of `_check_type` over a list of optional references, failing
on the first unknown one. -/
def checkEach (ts : List (Option String)) (known : List String) : Except String Unit :=
  match ts with
  | [] => .ok ()
  | t :: rest =>
    match _check_type t known with
    | .error e => .error e
    | .ok _ => checkEach rest known

/-- The optional type references `Class.check_types` inspects, in the order
the Python code visits them: bases, derived, property types, the IPA
from_class and the IPA on_arguments values. -/
def Class.checkedRefs (c : Class) : List (Option String) :=
  c.bases.map some ++ c.derived.map some ++ c.properties.map Property.type ++
    (match c.ipa with
     | none => []
     | some i =>
       i.from_class ::
         (match i.on_arguments with
          | none => []
          | some args => args.map (fun a => some a.2)))

/-- schema.py `Class.check_types`: every base, derived name, property type
and IPA reference must be in `known`. -/
def Class.check_types (c : Class) (known : List String) : Except String Unit :=
  checkEach c.checkedRefs known

/-- The plain (present) type references of a class, for stating properties
of `check_types`. -/
def Class.typeRefs (c : Class) : List String := c.checkedRefs.filterMap id

/-- One direct base of a raw class declaration, as the class builder sees
it through reflection: its name and the value of its `_group` attribute
(obtained with Python attribute inheritance), `none` when no class along
its ancestry defines `_group`. The implicit `object` base, which the
Python code filters out of `bases` and which never carries `_group`, is
simply not listed. -/
structure RawBase where
  name : String
  group : Option String := none
deriving DecidableEq

/-- One raw class declaration, carrying exactly the data `_get_class` reads
off the Python class object: its name, its direct bases, its statically
known subclasses, its own (non-inherited) `_group`, `_pragmas` and `_ipa`
definitions, its ordered annotations and its docstring. -/
structure RawClassDecl where
  name : String
  bases : List RawBase := []
  subclasses : List String := []
  ownGroup : Option String := none
  ownPragmas : List String := []
  ownIpa : Option IpaInfo := none
  annotations : List (String × PropSpec) := []
  docstring : Option String := none
  ownDocName : Option String := none
deriving DecidableEq

/-- Python `s[0].islower()` for a class name (ASCII letters; Python raises
IndexError on an empty name, which the caller models separately). -/
def firstIsLower (s : String) : Bool :=
  match s.data with
  | c :: _ => c.isLower
  | [] => false

/-- The group tag `getattr(cls, "_group", "")` resolves to: the class's own
`_group` if defined, otherwise the first base along the method resolution
order carrying `_group`, otherwise the empty string. -/
def resolveGroup (d : RawClassDecl) : String :=
  match d.ownGroup with
  | some g => g
  | none =>
    match (d.bases.filterMap RawBase.group).head? with
    | some g => g
    | none => ""

/-- The property list comprehension of `_get_class`: each annotation
`n : a` becomes `a | _PropertyNamer(n)`, and the first failure aborts. -/
def buildProps : List (String × PropSpec) → Except String (List Property)
  | [] => .ok []
  | na :: rest =>
    match buildProperty na.2 [PropertyModifier.namer na.1] with
    | .error e => .error e
    | .ok p =>
      match buildProps rest with
      | .error e => .error e
      | .ok ps => .ok (p :: ps)

/-- schema.py `_get_class`: build a `Class` from one raw declaration,
failing on an uncapitalized name, on direct bases whose `_group` attributes
disagree, or on an ill-formed property specifier. -/
def _get_class (d : RawClassDecl) : Except String Class :=
  if d.name = "" then .error "IndexError: string index out of range"
  else if firstIsLower d.name then
    .error ("Class name must be capitalized, found " ++ d.name)
  else if 1 < ((d.bases.filterMap RawBase.group).dedup).length then
    .error ("Bases with mixed groups for " ++ d.name)
  else
    match buildProps d.annotations with
    | .error e => .error e
    | .ok props =>
      .ok { name := d.name
            bases := d.bases.map RawBase.name
            derived := d.subclasses
            group := resolveGroup d
            pragmas := d.ownPragmas
            ipa := d.ownIpa
            properties := props
            doc := splitDocOpt d.docstring
            default_doc_name := d.ownDocName }

/-- First-match lookup in an insertion-ordered dictionary (`d[k]`). -/
def lookupA (d : List (String × α)) (k : String) : Option α :=
  match d with
  | [] => none
  | p :: rest => if p.1 = k then some p.2 else lookupA rest k

/-- The keys of an insertion-ordered dictionary. -/
def keysA (d : List (String × α)) : List String := d.map Prod.fst

/-- Python dictionary assignment `d[k] = v`: update in place when the key is
present (keeping its position), otherwise append at the end. -/
def pyInsert (d : List (String × α)) (k : String) (v : α) : List (String × α) :=
  if k ∈ keysA d then d.map (fun p => if p.1 = k then (k, v) else p)
  else d ++ [(k, v)]

/-- Python `dict.setdefault(k, []).append(v)` over a dictionary of lists:
append `v` to the list bound to `k`, binding `k` to `[v]` at the end when
absent. -/
def bucketAdd (d : List (String × List α)) (k : String) (v : α) :
    List (String × List α) :=
  if k ∈ keysA d then d.map (fun p => if p.1 = k then (p.1, p.2 ++ [v]) else p)
  else d ++ [(k, [v])]

/-- The group partition built by `_toposort_classes_by_group`: bucket the
class names by their class's `group`, in insertion order. -/
def groupsOf (classes : List (String × Class)) : List (String × List String) :=
  classes.foldl (fun acc p => bucketAdd acc p.2.group p.1) []

/-- Python `sorted` on the `(group, names)` pairs: group keys are distinct
dictionary keys, so sorting by the key alone reproduces Python's
lexicographic tuple order. -/
def sortGroups (gs : List (String × List String)) : List (String × List String) :=
  List.insertionSort (fun a b => strLe a.1 b.1 = true) gs

/-- Python `sorted` on one set of names emitted by a toposort round. -/
def sortNames (ns : List String) : List String :=
  List.insertionSort (fun a b => strLe a b = true) ns

/-- One round of the `toposort` generator: the items whose dependency set is
empty. -/
def levelOrdered (data : List (String × List String)) : List String :=
  (data.filter (fun p => p.2.isEmpty)).map Prod.fst

/-- The shrunken dependency map after one round: entries not emitted, with
the emitted items removed from their dependency sets. -/
def levelRest (data : List (String × List String)) : List (String × List String) :=
  (data.filter (fun p => decide (p.1 ∉ levelOrdered data))).map
    (fun p => (p.1, p.2.filter (fun x => decide (x ∉ levelOrdered data))))

/-- The rounds of the `toposort` generator, fuelled: emit the sorted no-dep
items and recurse on the shrunken map; when no item is free while entries
remain, the dependencies are cyclic (`CircularDependencyError`). The fuel
is always called with at least the number of entries, which one round
strictly decreases. -/
def tsRun (fuel : Nat) (data : List (String × List String)) : Except String (List String) :=
  if data = [] then .ok []
  else
    match fuel with
    | 0 => .error "Cyclic dependencies exist among these items"
    | f + 1 =>
      let ord := levelOrdered data
      if ord = [] then .error "Cyclic dependencies exist among these items"
      else
        match tsRun f (levelRest data) with
        | .error e => .error e
        | .ok tail => .ok (sortNames ord ++ tail)

/-- The dependency map with self-dependencies discarded
(`{item: set(dep) - {item} ...}` in the toposort library). -/
def tsPrepared (data : List (String × List String)) : List (String × List String) :=
  data.map (fun p => (p.1, p.2.filter (fun x => decide (x ≠ p.1))))

/-- The dependencies that are not themselves keys (`extra_items_in_deps` in
the toposort library), each to be added as an item with no dependencies. -/
def tsExtras (data : List (String × List String)) : List String :=
  (((tsPrepared data).flatMap Prod.snd).filter
    (fun x => decide (x ∉ keysA (tsPrepared data)))).dedup

/-- `toposort_flatten` of the toposort library, as called by schema.py:
discard self-dependencies, add every dependency that is not itself a key as
an item with no dependencies, then concatenate the sorted rounds. -/
def toposortFlatten (data : List (String × List String)) : Except String (List String) :=
  tsRun ((tsPrepared data).length + (tsExtras data).length)
    (tsPrepared data ++ (tsExtras data).map (fun x => (x, [])))

/-- The per-group dependency map `{name: classes[name].bases for name in
grouped}` (an absent name would raise `KeyError` in Python; it cannot occur
since the grouped names are keys of `classes`). -/
def groupInheritance (classes : List (String × Class)) (gp : String × List String) :
    List (String × List String) :=
  gp.2.map (fun n =>
    (n, match lookupA classes n with
        | some c => c.bases
        | none => []))

/-- The re-insertion loop `for name in toposort_flatten(inheritance):
ret[name] = classes[name]`; a name that is not a declared class makes the
Python lookup raise `KeyError`. -/
def insertClasses (classes : List (String × Class)) (ret : List (String × Class)) :
    List String → Except String (List (String × Class))
  | [] => .ok ret
  | n :: rest =>
    match lookupA classes n with
    | some c => insertClasses classes (pyInsert ret n c) rest
    | none => .error ("KeyError: " ++ n)

/-- One iteration of the group loop of `_toposort_classes_by_group`. -/
def groupStep (classes : List (String × Class)) (ret : List (String × Class))
    (gp : String × List String) : Except String (List (String × Class)) :=
  match toposortFlatten (groupInheritance classes gp) with
  | .error e => .error e
  | .ok names => insertClasses classes ret names

/-- The loop of `_toposort_classes_by_group` over the sorted groups. -/
def groupsFold (classes : List (String × Class)) (ret : List (String × Class)) :
    List (String × List String) → Except String (List (String × Class))
  | [] => .ok ret
  | gp :: rest =>
    match groupStep classes ret gp with
    | .error e => .error e
    | .ok ret' => groupsFold classes ret' rest

/-- schema.py `_toposort_classes_by_group`: bucket the classes by group,
process the groups in sorted order, topologically sort each group by the
bases relation and re-insert the classes in that order. -/
def _toposort_classes_by_group (classes : List (String × Class)) :
    Except String (List (String × Class)) :=
  groupsFold classes [] (sortGroups (groupsOf classes))

/-- The schema aggregate (schema.py `Schema`): the ordered class dictionary
and the includes. -/
structure Schema where
  classes : List (String × Class) := []
  includes : List String := []
deriving DecidableEq

/-- One binding of the schema module dictionary as `load` sees it: a class
declaration, or a list value (as bound to `__includes`). -/
inductive ModuleEntry where
  | cls (d : RawClassDecl)
  | strList (l : List String)
deriving DecidableEq

/-- The loader state while iterating the module bindings. -/
structure LoadState where
  includes : List String := []
  classes : List (String × Class) := []
deriving DecidableEq

/-- The known-type universe: the primitives plus every module-level name
not starting with a double underscore. -/
def mkKnown (entries : List (String × ModuleEntry)) : List String :=
  ["int", "string", "boolean"] ++
    (entries.map Prod.fst).filter (fun n => !pyStartsDunder n)

/-- One iteration of the loader loop over a module binding, in source
order: skip names the defs module also has, capture `__includes`, skip the
remaining dunder names, build the class, enforce the root rule (a class
with no bases is only accepted while no class has been accepted yet),
validate its type references and record it. -/
def processEntry (defsNames : List String) (known : List String)
    (st : LoadState) (e : String × ModuleEntry) : Except String LoadState :=
  if e.1 ∈ defsNames then .ok st
  else if e.1 = "__includes" then
    match e.2 with
    | .strList l => .ok { st with includes := l }
    | .cls _ => .error "TypeError: object is not iterable"
  else if pyStartsDunder e.1 then .ok st
  else
    match e.2 with
    | .strList _ => .error "Only class definitions allowed in schema"
    | .cls d =>
      match _get_class d with
      | .error err => .error err
      | .ok c =>
        if st.classes ≠ [] ∧ c.bases = [] then
          .error ("Only one root class allowed, found second root " ++ e.1)
        else
          match c.check_types known with
          | .error err => .error err
          | .ok _ => .ok { st with classes := st.classes ++ [(e.1, c)] }

/-- The loader loop over all module bindings. -/
def loadRaw (defsNames : List String) (known : List String)
    (entries : List (String × ModuleEntry)) : Except String LoadState :=
  entries.foldlM (processEntry defsNames known) {}

/-- schema.py `load`: build the known-type universe, process every module
binding and hand the accepted classes to the grouped topological sorter. -/
def load (defsNames : List String) (entries : List (String × ModuleEntry)) :
    Except String Schema :=
  match loadRaw defsNames (mkKnown entries) entries with
  | .error e => .error e
  | .ok st =>
    match _toposort_classes_by_group st.classes with
    | .error e => .error e
    | .ok sorted => .ok { includes := st.includes, classes := sorted }

/-- Invariant: every binding of the accumulator is a binding of `classes`. -/
def BoundIn (classes ret : List (String × Class)) : Prop :=
  ∀ q ∈ ret, lookupA classes q.1 = some q.2

/-- Group-closed inheritance: every base of a class is itself a class of
the same group. -/
def GroupClosed (classes : List (String × Class)) : Prop :=
  ∀ q ∈ classes, ∀ b ∈ q.2.bases, ∃ cb, (b, cb) ∈ classes ∧ cb.group = q.2.group

/-- No class lists itself among its bases. -/
def SelfFree (classes : List (String × Class)) : Prop :=
  ∀ q ∈ classes, q.1 ∉ q.2.bases

/-- Does a name start with an uppercase letter?  This is the specification's
wording of the naming rule; the code instead rejects names whose first
character satisfies `islower`. -/
def firstIsUpper (s : String) : Bool :=
  match s.data with
  | c :: _ => c.isUpper
  | [] => false

/-- The effective group tag of a direct base in the sense of the data model,
where every class carries a group defaulting to the empty string. -/
def RawBase.effectiveGroup (b : RawBase) : String := b.group.getD ""

/-- Demo declaration: a class with one base, declared before the root. -/
def lateRootB : RawClassDecl := { name := "B", bases := [{ name := "A" }] }

/-- Demo declaration: the unique baseless class, declared second. -/
def lateRootA : RawClassDecl := { name := "A" }

/-- Demo module where a based class precedes the only baseless class. -/
def lateRootEntries : List (String × ModuleEntry) :=
  [("B", .cls lateRootB), ("A", .cls lateRootA)]

/-- Demo declaration: a root class with no bases and no group. -/
def crossRoot : RawClassDecl := { name := "Root" }

/-- Demo declaration: a class of group `b` deriving from the root. -/
def crossX : RawClassDecl :=
  { name := "X", bases := [{ name := "Root" }], ownGroup := some "b" }

/-- Demo declaration: a class of group `a` whose base lives in group `b`. -/
def crossY : RawClassDecl :=
  { name := "Y", bases := [{ name := "X", group := some "b" }], ownGroup := some "a" }

/-- Demo module with a cross-group base reference. -/
def crossEntries : List (String × ModuleEntry) :=
  [("Root", .cls crossRoot), ("X", .cls crossX), ("Y", .cls crossY)]

/-- Demo class `B` with no bases, declared first. -/
def tieB : Class := { name := "B" }

/-- Demo class `A` with no bases, declared second. -/
def tieA : Class := { name := "A" }

/-- Demo class depending on `B`, forming a cycle. -/
def cycA : Class := { name := "A", bases := ["B"] }

/-- Demo class depending on `A`, forming a cycle. -/
def cycB : Class := { name := "B", bases := ["A"] }

/-- Demo declaration with two bases: one carrying `_group`, one carrying
none. -/
def mixedDemo : RawClassDecl :=
  { name := "C", bases := [{ name := "A", group := some "g1" }, { name := "B" }] }

/-- Demo declaration whose name starts with an underscore. -/
def underscoreDemo : RawClassDecl := { name := "_Foo" }

/-- Demo declaration: a well-formed root. -/
def wRoot : RawClassDecl := { name := "Root" }

/-- Demo declaration: a well-formed child of the root. -/
def wChild : RawClassDecl := { name := "Child", bases := [{ name := "Root" }] }

/-- Demo module representing a valid two-class schema. -/
def wEntries : List (String × ModuleEntry) :=
  [("Root", .cls wRoot), ("Child", .cls wChild)]

/-! Helper lemmas about the Python string primitives. -/

lemma stringMk_eq_empty_iff (l : List Char) : String.mk l = "" ↔ l = [] := by
  constructor
  · intro h
    have := congrArg String.data h
    simpa using this
  · intro h
    simp [h]

lemma pyLstrip_empty_rstrip (s : String) (h : pyLstrip s = "") : pyRstrip s = "" := by
  have hd : s.data.dropWhile pySpace = [] := (stringMk_eq_empty_iff _).mp h
  have hall : ∀ c ∈ s.data, pySpace c = true := List.dropWhile_eq_nil_iff.mp hd
  have : List.rdropWhile pySpace s.data = [] := List.rdropWhile_eq_nil_iff.mpr hall
  simp [pyRstrip, this]

lemma rdropWhile_append_all {α} (p : α → Bool) (l₁ l₂ : List α)
    (h : ∀ y ∈ l₂, p y = true) :
    List.rdropWhile p (l₁ ++ l₂) = List.rdropWhile p l₁ := by
  have h₂ : l₂.reverse.dropWhile p = [] := by
    refine List.dropWhile_eq_nil_iff.mpr ?_
    intro x hx
    exact h x (List.mem_reverse.mp hx)
  simp [List.rdropWhile, List.dropWhile_append, h₂]

lemma pySliceFrom_zero (s : String) : pySliceFrom 0 s = s := by
  simp [pySliceFrom]

/-- Claim C3 is refuted as stated: on the input of its second worked
example, `split_doc` keeps the interior blank lines (only leading and
trailing blank lines are removed), so the result is not
`["Summary", "indented"]`. -/
theorem split_doc_blank_lines_counterexample :
    split_doc "Summary\n\n   \n  indented" = ["Summary", "", "", "indented"] ∧
    (["Summary", "", "", "indented"] : List String) ≠ ["Summary", "indented"] := by
  refine ⟨by decide, by decide⟩

/-- Claim C3, corrected. The first worked example holds, the second worked
example actually produces interior blank lines which `split_doc` keeps
(only leading and trailing blank lines are removed), and in general
`split_doc` agrees with the normalization described by the specification
text (`split_doc_spec`). -/
theorem split_doc_normalizes :
    split_doc "Summary\n    line one\n    line two" = ["Summary", "line one", "line two"] ∧
    split_doc "Summary\n\n   \n  indented" = ["Summary", "", "", "indented"] ∧
    ∀ doc, split_doc doc = split_doc_spec doc := by
  refine ⟨by decide, by decide, ?_⟩
  intro doc
  by_cases h0 : doc = ""
  · subst h0
    decide
  · cases hs : pySplitlines doc with
    | nil => simp [split_doc, split_doc_spec, if_neg h0, hs]
    | cons first rest =>
      cases hind : rest.filterMap
          (fun l => if pyLstrip l ≠ "" then some (l.length - (pyLstrip l).length) else none) with
      | cons i is => simp only [split_doc, split_doc_spec, if_neg h0, hs, hind]
      | nil =>
        simp only [split_doc, split_doc_spec, if_neg h0, hs, hind]
        have hall : ∀ l ∈ rest, pyLstrip l = "" := by
          intro l hl
          have := List.filterMap_eq_nil_iff.mp hind l hl
          by_cases hne : pyLstrip l = ""
          · exact hne
          · simp [hne] at this
        have hblank : ∀ l ∈ rest.map (fun l => pyRstrip (pySliceFrom 0 l)),
            decide (l = "") = true := by
          intro l hl
          rcases List.mem_map.mp hl with ⟨x, hx, rfl⟩
          rw [pySliceFrom_zero]
          simp [pyLstrip_empty_rstrip x (hall x hx)]
        have hkey : List.rdropWhile (fun l => decide (l = ""))
            (pyStrip first :: rest.map (fun l => pyRstrip (pySliceFrom 0 l))) =
            List.rdropWhile (fun l => decide (l = "")) [pyStrip first] := by
          have : pyStrip first :: rest.map (fun l => pyRstrip (pySliceFrom 0 l)) =
              [pyStrip first] ++ rest.map (fun l => pyRstrip (pySliceFrom 0 l)) := rfl
          rw [this, rdropWhile_append_all _ _ _ hblank]
        rw [hkey]

/-! Lemmas about `check_types` (claim C5). -/

lemma checkEach_ok_iff (ts : List (Option String)) (known : List String) :
    checkEach ts known = .ok () ↔ ∀ t ∈ ts.filterMap id, t ∈ known := by
  induction ts with
  | nil => simp [checkEach]
  | cons t rest ih =>
    cases t with
    | none => simpa [checkEach, _check_type] using ih
    | some s =>
      by_cases hs : s ∈ known
      · simp [checkEach, _check_type, hs, ih]
      · simp [checkEach, _check_type, hs]

lemma checkEach_error (ts : List (Option String)) (known : List String) (e : String)
    (h : checkEach ts known = .error e) :
    ∃ t, t ∈ ts.filterMap id ∧ t ∉ known ∧ e = "Unknown type " ++ t := by
  induction ts with
  | nil => simp [checkEach] at h
  | cons t rest ih =>
    cases t with
    | none =>
      simp only [checkEach, _check_type] at h
      rcases ih h with ⟨t', h1, h2, h3⟩
      exact ⟨t', by simpa using h1, h2, h3⟩
    | some s =>
      by_cases hs : s ∈ known
      · simp only [checkEach, _check_type, if_pos hs] at h
        rcases ih h with ⟨t', h1, h2, h3⟩
        exact ⟨t', by simp [h1], h2, h3⟩
      · simp only [checkEach, _check_type, if_neg hs] at h
        exact ⟨s, by simp, hs, (Except.error.injEq _ _).mp h |>.symm⟩

/-- Claim C5, confirmed. `check_types` succeeds exactly when every type
reference of the class (bases, derived, present property types, IPA
references) is known, and any error it raises is `Unknown type t` for such
an unknown reference `t`. -/
theorem check_types_characterization (c : Class) (known : List String) :
    (c.check_types known = .ok () ↔ ∀ t ∈ c.typeRefs, t ∈ known) ∧
    (∀ e, c.check_types known = .error e →
      ∃ t, t ∈ c.typeRefs ∧ t ∉ known ∧ e = "Unknown type " ++ t) ∧
    ((∃ e, c.check_types known = .error e) ↔ ∃ t ∈ c.typeRefs, t ∉ known) := by
  have hok : c.check_types known = .ok () ↔ ∀ t ∈ c.typeRefs, t ∈ known := by
    simpa [Class.check_types, Class.typeRefs] using checkEach_ok_iff c.checkedRefs known
  have herr : ∀ e, c.check_types known = .error e →
      ∃ t, t ∈ c.typeRefs ∧ t ∉ known ∧ e = "Unknown type " ++ t := by
    intro e he
    exact checkEach_error c.checkedRefs known e he
  refine ⟨hok, herr, ?_, ?_⟩
  · rintro ⟨e, he⟩
    obtain ⟨t, h1, h2, _⟩ := herr e he
    exact ⟨t, h1, h2⟩
  · rintro ⟨t, h1, h2⟩
    cases hc : c.check_types known with
    | error e => exact ⟨e, rfl⟩
    | ok u =>
      cases u
      exact absurd (hok.mp hc t h1) h2

/-- Witness for `check_types_characterization` at a concrete class. -/
theorem check_types_characterization_witness :
    ({ name := "Child", bases := ["Root"], properties := [{ kind := .SINGLE, type := some "int" }] } :
      Class).check_types ["int", "string", "boolean", "Root", "Child"] = .ok () := by
  exact (check_types_characterization _ _).1.mpr (by decide)

/-! Lemmas about the property pipeline (claims C8, C9). -/

lemma foldl_modify_preserves (ms : List PropertyModifier) (p : Property) :
    (ms.foldl (fun q m => m.modify q) p).type = p.type ∧
    (ms.foldl (fun q m => m.modify q) p).kind = p.kind := by
  induction ms generalizing p with
  | nil => exact ⟨rfl, rfl⟩
  | cons m rest ih =>
    cases m with
    | namer declared => simpa [PropertyModifier.modify] using ih _

/-- Claim C8 is refuted as stated: an already-built `Property` value passes
through the pipeline unvalidated, so a SINGLE-kind property with no type
comes out with the type still absent although its kind is not PREDICATE. -/
theorem property_type_invariant_counterexample :
    buildProperty (.prop { kind := .SINGLE }) [] = .ok { kind := .SINGLE } ∧
    ¬ (({ kind := .SINGLE } : Property).type = none ↔
        ({ kind := .SINGLE } : Property).kind = .PREDICATE) := by
  constructor
  · decide
  · decide

/-- Claim C8, amended: the pipeline preserves the `type`-iff-PREDICATE
invariant. Properties built from a bare type reference or from the
predicate marker always satisfy it, and a pre-built `Property` input
satisfying it yields an output satisfying it, under any modifier list. -/
theorem property_type_invariant (s : PropSpec) (ms : List PropertyModifier)
    (p : Property)
    (hs : ∀ q, s = .prop q → (q.type = none ↔ q.kind = .PREDICATE))
    (h : buildProperty s ms = .ok p) :
    p.type = none ↔ p.kind = .PREDICATE := by
  rcases foldl_modify_preserves ms with _
  cases s with
  | typeRef t =>
    simp only [buildProperty, _make_property] at h
    rcases (Except.ok.injEq _ _).mp h with rfl
    rcases foldl_modify_preserves ms { kind := .SINGLE, type := some t } with ⟨ht, hk⟩
    rw [ht, hk]
    simp
  | marker =>
    simp only [buildProperty, _make_property] at h
    rcases (Except.ok.injEq _ _).mp h with rfl
    rcases foldl_modify_preserves ms { kind := .PREDICATE } with ⟨ht, hk⟩
    rw [ht, hk]
    simp
  | prop q =>
    simp only [buildProperty, _make_property] at h
    rcases (Except.ok.injEq _ _).mp h with rfl
    rcases foldl_modify_preserves ms q with ⟨ht, hk⟩
    rw [ht, hk]
    exact hs q rfl
  | illegal shown => simp [buildProperty, _make_property] at h

/-- Witness for `property_type_invariant`: a named single string property. -/
theorem property_type_invariant_witness :
    (({ kind := .SINGLE, type := some "string", name := some "value" } : Property).type = none ↔
      ({ kind := .SINGLE, type := some "string", name := some "value" } : Property).kind = .PREDICATE) := by
  exact property_type_invariant (.typeRef "string") [.namer "value_"] _
    (fun q hq => by cases hq) (by decide)

/-- Claim C9 is refuted as stated: `rstrip("_")` removes every trailing
underscore, so a declared name `x__` is stored as `x`, not as `x_` (the
name with only the single trailing underscore removed). -/
theorem property_namer_counterexample :
    (PropertyModifier.modify (.namer "x__") { kind := .SINGLE }).name = some "x" ∧
    "x" ≠ "x_" ∧ "x__".data.getLast? = some '_' := by
  refine ⟨by decide, by decide, by decide⟩

/-- Claim C9, amended: the naming modifier strips every trailing underscore
from the declared name. A name with no trailing underscore is stored
unchanged, `class_` is stored as `class`, and a stored name never ends in
an underscore. -/
theorem property_namer_normalization (declared : String) (p : Property) :
    (declared.data.getLast? ≠ some '_' →
      (PropertyModifier.modify (.namer declared) p).name = some declared) ∧
    (PropertyModifier.modify (.namer "class_") p).name = some "class" ∧
    (∀ s, (PropertyModifier.modify (.namer declared) p).name = some s →
      s.data.getLast? ≠ some '_') := by
  refine ⟨?_, ?_, ?_⟩
  · intro h
    simp only [PropertyModifier.modify, Option.some.injEq]
    refine String.ext ?_
    show List.rdropWhile (fun c => decide (c = '_')) declared.data = declared.data
    refine List.rdropWhile_eq_self_iff.mpr ?_
    intro hl
    have : declared.data.getLast? = some (declared.data.getLast hl) :=
      List.getLast?_eq_getLast _ hl
    simp only [decide_eq_true_eq]
    intro hc
    exact h (by rw [this, hc])
  · simp only [PropertyModifier.modify, Option.some.injEq]
    decide
  · intro s hs
    simp only [PropertyModifier.modify, Option.some.injEq] at hs
    subst hs
    show (List.rdropWhile (fun c => decide (c = '_')) declared.data).getLast? ≠ some '_'
    by_cases hne : List.rdropWhile (fun c => decide (c = '_')) declared.data = []
    · simp [hne]
    · have hlast := List.rdropWhile_last_not (fun c => decide (c = '_')) declared.data hne
      rw [List.getLast?_eq_getLast _ hne]
      simp only [decide_eq_true_eq] at hlast
      simpa using hlast

/-- Witness for `property_namer_normalization`: an underscore-free name is
stored unchanged. -/
theorem property_namer_normalization_witness :
    (PropertyModifier.modify (.namer "value") { kind := .SINGLE }).name = some "value" := by
  exact (property_namer_normalization "value" { kind := .SINGLE }).1 (by decide)

/-! Lemmas about `_get_class` (claims C6, C7). -/

lemma string_data_append (a b : String) : (a ++ b).data = a.data ++ b.data := by
  cases a
  cases b
  rfl

lemma append_ne_append_of_head (a b x y : String) (ca cb : Char)
    (hca : a.data.head? = some ca) (hcb : b.data.head? = some cb) (hne : ca ≠ cb) :
    a ++ x ≠ b ++ y := by
  intro h
  have hd := congrArg String.data h
  rw [string_data_append, string_data_append] at hd
  have h1 : (a.data ++ x.data).head? = some ca := by
    cases ha : a.data with
    | nil => rw [ha] at hca; simp at hca
    | cons c cs => rw [ha] at hca; simpa using hca
  rw [hd] at h1
  have h2 : (b.data ++ y.data).head? = some cb := by
    cases hb : b.data with
    | nil => rw [hb] at hcb; simp at hcb
    | cons c cs => rw [hb] at hcb; simpa using hcb
  rw [h2] at h1
  exact hne (Option.some.inj h1).symm

lemma lit_ne_append (a b y : String) (ca cb : Char)
    (hca : a.data.head? = some ca) (hcb : b.data.head? = some cb) (hne : ca ≠ cb) :
    a ≠ b ++ y := by
  intro h
  have hd := congrArg String.data h
  rw [string_data_append] at hd
  have h2 : (b.data ++ y.data).head? = some cb := by
    cases hb : b.data with
    | nil => rw [hb] at hcb; simp at hcb
    | cons c cs => rw [hb] at hcb; simpa using hcb
  rw [hd, h2] at hca
  exact hne (Option.some.inj hca).symm

lemma buildProperty_error (s : PropSpec) (ms : List PropertyModifier) (e : String)
    (h : buildProperty s ms = .error e) :
    ∃ shown, e = "Illegal property specifier " ++ shown := by
  cases s with
  | typeRef t => simp [buildProperty, _make_property] at h
  | marker => simp [buildProperty, _make_property] at h
  | prop q => simp [buildProperty, _make_property] at h
  | illegal shown =>
    simp only [buildProperty, _make_property] at h
    exact ⟨shown, ((Except.error.injEq _ _).mp h).symm⟩

lemma buildProps_ok (l : List (String × PropSpec))
    (h : ∀ pr ∈ l, ∃ p, _make_property pr.2 = .ok p) :
    ∃ ps, buildProps l = .ok ps := by
  induction l with
  | nil => exact ⟨[], rfl⟩
  | cons a rest ih =>
    obtain ⟨p, hp⟩ := h a (List.mem_cons_self a rest)
    obtain ⟨ps, hps⟩ := ih (fun pr hpr => h pr (List.mem_cons_of_mem a hpr))
    refine ⟨(PropertyModifier.namer a.1).modify p :: ps, ?_⟩
    simp [buildProps, buildProperty, hp, hps]

lemma buildProps_error (l : List (String × PropSpec)) (e : String)
    (h : buildProps l = .error e) :
    ∃ shown, e = "Illegal property specifier " ++ shown := by
  induction l with
  | nil => simp [buildProps] at h
  | cons a rest ih =>
    simp only [buildProps] at h
    cases hb : buildProperty a.2 [PropertyModifier.namer a.1] with
    | error e' =>
      rw [hb] at h
      obtain rfl := (Except.error.injEq _ _).mp h
      exact buildProperty_error _ _ _ hb
    | ok p =>
      rw [hb] at h
      cases hr : buildProps rest with
      | error e' =>
        rw [hr] at h
        obtain rfl := (Except.error.injEq _ _).mp h
        exact ih hr
      | ok ps =>
        rw [hr] at h
        simp at h

lemma firstIsLower_ne_empty (s : String) (h : firstIsLower s = true) : s ≠ "" := by
  intro he
  subst he
  simp [firstIsLower] at h

lemma getClass_ok_of_checks (d : RawClassDecl) (h1 : d.name ≠ "")
    (h2 : firstIsLower d.name = false)
    (h3 : ((d.bases.filterMap RawBase.group).dedup).length ≤ 1)
    (h4 : ∀ pr ∈ d.annotations, ∃ p, _make_property pr.2 = .ok p) :
    ∃ c, _get_class d = .ok c := by
  obtain ⟨ps, hps⟩ := buildProps_ok d.annotations h4
  have hlow : ¬ (firstIsLower d.name = true) := by simp [h2]
  have hmix : ¬ (1 < ((d.bases.filterMap RawBase.group).dedup).length) := Nat.not_lt.mpr h3
  refine ⟨{ name := d.name, bases := d.bases.map RawBase.name, derived := d.subclasses, properties := ps, group := resolveGroup d, pragmas := d.ownPragmas, ipa := d.ownIpa, doc := splitDocOpt d.docstring, default_doc_name := d.ownDocName }, ?_⟩
  simp only [_get_class, if_neg h1, if_neg hlow, if_neg hmix, hps]

/-- Claim C6 is refuted as stated: the code only rejects names whose first
character is a lowercase letter, so a name starting with an underscore
(not an uppercase letter) is accepted. -/
theorem class_name_rule_counterexample :
    _get_class underscoreDemo = .ok { name := "_Foo" } ∧
    firstIsUpper "_Foo" = false := by
  constructor
  · decide
  · decide

/-- Claim C6, amended: `_get_class` raises the capitalization error exactly
for names whose first character is a lowercase letter; a nonempty name
whose first character is not lowercase passes the name check, so the
declaration is accepted whenever its bases' `_group` attributes agree and
its property specifiers are well-formed. -/
theorem class_name_rule (d : RawClassDecl) :
    (firstIsLower d.name = true →
      _get_class d = .error ("Class name must be capitalized, found " ++ d.name)) ∧
    (d.name ≠ "" → firstIsLower d.name = false →
      ((d.bases.filterMap RawBase.group).dedup).length ≤ 1 →
      (∀ pr ∈ d.annotations, ∃ p, _make_property pr.2 = .ok p) →
      ∃ c, _get_class d = .ok c) := by
  constructor
  · intro h
    have hne := firstIsLower_ne_empty d.name h
    simp [_get_class, if_neg hne, h]
  · intro h1 h2 h3 h4
    exact getClass_ok_of_checks d h1 h2 h3 h4

/-- Witness for `class_name_rule`: the lowercase name `child` is rejected
with the capitalization error. -/
theorem class_name_rule_witness :
    _get_class { name := "child" } =
      .error ("Class name must be capitalized, found " ++ "child") := by
  exact (class_name_rule { name := "child" }).1 (by decide)

/-- Claim C7 is refuted as stated: the mixed-group check ignores bases that
carry no `_group` attribute, so a declaration whose two bases have
different effective group tags (`g1` versus the default empty tag) is
accepted. -/
theorem mixed_groups_counterexample :
    _get_class mixedDemo = .ok { name := "C", bases := ["A", "B"], group := "g1" } ∧
    2 ≤ mixedDemo.bases.length ∧
    RawBase.effectiveGroup { name := "A", group := some "g1" } ≠
      RawBase.effectiveGroup { name := "B" } := by
  refine ⟨by decide, by decide, by decide⟩

/-- Claim C7, amended: `_get_class` raises the mixed-groups error exactly
when at least two distinct `_group` values occur among the bases that
carry the attribute; bases without the attribute are ignored by the check
rather than counted as the default empty group. -/
theorem mixed_groups_rule (d : RawClassDecl) :
    (d.name ≠ "" → firstIsLower d.name = false →
      1 < ((d.bases.filterMap RawBase.group).dedup).length →
      _get_class d = .error ("Bases with mixed groups for " ++ d.name)) ∧
    (((d.bases.filterMap RawBase.group).dedup).length ≤ 1 →
      ∀ e, _get_class d = .error e →
        e ≠ "Bases with mixed groups for " ++ d.name) := by
  constructor
  · intro h1 h2 h3
    have hlow : ¬ (firstIsLower d.name = true) := by simp [h2]
    simp [_get_class, if_neg h1, if_neg hlow, h3]
  · intro h3 e he hmsg
    by_cases h1 : d.name = ""
    · rw [_get_class, if_pos h1] at he
      obtain rfl := (Except.error.injEq _ _).mp he
      exact lit_ne_append "IndexError: string index out of range"
        "Bases with mixed groups for " d.name 'I' 'B' (by decide) (by decide)
        (by decide) hmsg
    · by_cases h2 : firstIsLower d.name = true
      · rw [_get_class, if_neg h1, if_pos h2] at he
        obtain rfl := (Except.error.injEq _ _).mp he
        exact append_ne_append_of_head "Class name must be capitalized, found "
          "Bases with mixed groups for " d.name d.name 'C' 'B' (by decide)
          (by decide) (by decide) hmsg
      · have hmix : ¬ (1 < ((d.bases.filterMap RawBase.group).dedup).length) :=
          Nat.not_lt.mpr h3
        rw [_get_class, if_neg h1, if_neg h2, if_neg hmix] at he
        cases hb : buildProps d.annotations with
        | error e' =>
          rw [hb] at he
          obtain rfl := (Except.error.injEq _ _).mp he
          obtain ⟨shown, rfl⟩ := buildProps_error _ _ hb
          exact append_ne_append_of_head "Illegal property specifier "
            "Bases with mixed groups for " shown d.name 'I' 'B' (by decide)
            (by decide) (by decide) hmsg
        | ok ps =>
          rw [hb] at he
          simp at he

/-- Witness for `mixed_groups_rule`: two bases with disagreeing `_group`
attributes are rejected. -/
theorem mixed_groups_rule_witness :
    _get_class { name := "C", bases := [{ name := "A", group := some "g1" }, { name := "B", group := some "g2" }] } =
      .error ("Bases with mixed groups for " ++ "C") := by
  exact (mixed_groups_rule _).1 (by decide) (by decide) (by decide)

/-! Association list lemmas. -/

lemma mem_keysA {α} {d : List (String × α)} {q : String × α} (h : q ∈ d) :
    q.1 ∈ keysA d := List.mem_map_of_mem Prod.fst h

lemma lookupA_mem {α} {d : List (String × α)} {k : String} {v : α}
    (h : lookupA d k = some v) : (k, v) ∈ d := by
  induction d with
  | nil => simp [lookupA] at h
  | cons p rest ih =>
    by_cases hp : p.1 = k
    · rw [lookupA, if_pos hp] at h
      obtain rfl := Option.some.inj h
      have hpe : (k, p.2) = p := by
        rw [Prod.ext_iff]
        exact ⟨hp.symm, rfl⟩
      rw [hpe]
      exact List.mem_cons_self p rest
    · rw [lookupA, if_neg hp] at h
      exact List.mem_cons_of_mem _ (ih h)

lemma mem_lookupA {α} {d : List (String × α)} {k : String} {v : α}
    (hnd : (keysA d).Nodup) (h : (k, v) ∈ d) : lookupA d k = some v := by
  induction d with
  | nil => simp at h
  | cons p rest ih =>
    rw [keysA, List.map_cons, List.nodup_cons] at hnd
    rcases List.mem_cons.mp h with heq | hmem
    · rw [lookupA, if_pos (by rw [← heq])]
      rw [← heq]
    · have hk : p.1 ≠ k := by
        intro hpk
        exact hnd.1 (hpk ▸ mem_keysA hmem)
      rw [lookupA, if_neg hk]
      exact ih hnd.2 hmem

lemma entry_unique {α} {d : List (String × α)} (hnd : (keysA d).Nodup)
    {p q : String × α} (hp : p ∈ d) (hq : q ∈ d) (h : p.1 = q.1) : p = q := by
  have h1 : lookupA d p.1 = some p.2 := mem_lookupA hnd hp
  have h2 : lookupA d q.1 = some q.2 := mem_lookupA hnd hq
  rw [h] at h1
  rw [h1] at h2
  rw [Prod.ext_iff]
  exact ⟨h, Option.some.inj h2⟩

lemma keysA_append {α} (d e : List (String × α)) :
    keysA (d ++ e) = keysA d ++ keysA e := List.map_append _ _ _

lemma keysA_pyInsert_mem {α} (d : List (String × α)) (k : String) (v : α) (x : String) :
    x ∈ keysA (pyInsert d k v) ↔ x ∈ keysA d ∨ x = k := by
  by_cases hk : k ∈ keysA d
  · rw [pyInsert, if_pos hk]
    have : keysA (d.map (fun p => if p.1 = k then (k, v) else p)) = keysA d := by
      rw [keysA, List.map_map]
      refine List.map_congr_left ?_
      intro p _
      by_cases hp : p.1 = k
      · simp [hp]
      · simp [hp]
    rw [this]
    constructor
    · exact Or.inl
    · rintro (h | rfl)
      · exact h
      · exact hk
  · rw [pyInsert, if_neg hk, keysA_append]
    simp [keysA]

lemma keysA_pyInsert_nodup {α} (d : List (String × α)) (k : String) (v : α)
    (h : (keysA d).Nodup) : (keysA (pyInsert d k v)).Nodup := by
  by_cases hk : k ∈ keysA d
  · rw [pyInsert, if_pos hk]
    have : keysA (d.map (fun p => if p.1 = k then (k, v) else p)) = keysA d := by
      rw [keysA, List.map_map]
      refine List.map_congr_left ?_
      intro p _
      by_cases hp : p.1 = k
      · simp [hp]
      · simp [hp]
    rw [this]
    exact h
  · rw [pyInsert, if_neg hk, keysA_append]
    refine List.nodup_append.mpr ⟨h, by simp [keysA], ?_⟩
    intro a ha
    simp only [keysA, List.map_cons, List.map_nil, List.mem_singleton]
    intro hak
    exact hk (hak ▸ ha)

lemma mem_pyInsert {α} (d : List (String × α)) (k : String) (v : α)
    (q : String × α) (h : q ∈ pyInsert d k v) : q ∈ d ∨ q = (k, v) := by
  by_cases hk : k ∈ keysA d
  · rw [pyInsert, if_pos hk] at h
    rcases List.mem_map.mp h with ⟨p, hp, hpq⟩
    by_cases hpk : p.1 = k
    · rw [if_pos hpk] at hpq
      exact Or.inr hpq.symm
    · rw [if_neg hpk] at hpq
      exact Or.inl (hpq ▸ hp)
  · rw [pyInsert, if_neg hk] at h
    rcases List.mem_append.mp h with h' | h'
    · exact Or.inl h'
    · exact Or.inr (List.mem_singleton.mp h')

lemma pyInsert_fresh {α} (d : List (String × α)) (k : String) (v : α)
    (hk : k ∉ keysA d) : pyInsert d k v = d ++ [(k, v)] := by
  rw [pyInsert, if_neg hk]

/-! Lemmas about the group partition `groupsOf`. -/

lemma keysA_bucketAdd_mem {α} (d : List (String × List α)) (k : String) (v : α)
    (x : String) : x ∈ keysA (bucketAdd d k v) ↔ x ∈ keysA d ∨ x = k := by
  by_cases hk : k ∈ keysA d
  · rw [bucketAdd, if_pos hk]
    have : keysA (d.map (fun p => if p.1 = k then (p.1, p.2 ++ [v]) else p)) = keysA d := by
      rw [keysA, List.map_map]
      refine List.map_congr_left ?_
      intro p _
      by_cases hp : p.1 = k
      · simp [hp]
      · simp [hp]
    rw [this]
    constructor
    · exact Or.inl
    · rintro (h | rfl)
      · exact h
      · exact hk
  · rw [bucketAdd, if_neg hk, keysA_append]
    simp [keysA]

lemma keysA_bucketAdd_nodup {α} (d : List (String × List α)) (k : String) (v : α)
    (h : (keysA d).Nodup) : (keysA (bucketAdd d k v)).Nodup := by
  by_cases hk : k ∈ keysA d
  · rw [bucketAdd, if_pos hk]
    have : keysA (d.map (fun p => if p.1 = k then (p.1, p.2 ++ [v]) else p)) = keysA d := by
      rw [keysA, List.map_map]
      refine List.map_congr_left ?_
      intro p _
      by_cases hp : p.1 = k
      · simp [hp]
      · simp [hp]
    rw [this]
    exact h
  · rw [bucketAdd, if_neg hk, keysA_append]
    refine List.nodup_append.mpr ⟨h, by simp [keysA], ?_⟩
    intro a ha
    simp only [keysA, List.map_cons, List.map_nil, List.mem_singleton]
    intro hak
    exact hk (hak ▸ ha)

lemma mem_bucketAdd {α} (d : List (String × List α)) (k : String) (v : α)
    (q : String × List α) (h : q ∈ bucketAdd d k v) :
    (q ∈ d ∧ q.1 ≠ k) ∨ (∃ l, (k, l) ∈ d ∧ q = (k, l ++ [v])) ∨
      (k ∉ keysA d ∧ q = (k, [v])) := by
  by_cases hk : k ∈ keysA d
  · rw [bucketAdd, if_pos hk] at h
    rcases List.mem_map.mp h with ⟨p, hp, hpq⟩
    by_cases hpk : p.1 = k
    · rw [if_pos hpk] at hpq
      refine Or.inr (Or.inl ⟨p.2, ?_, ?_⟩)
      · have : (k, p.2) = p := by
          rw [Prod.ext_iff]
          exact ⟨hpk.symm, rfl⟩
        rw [this]
        exact hp
      · rw [← hpq, Prod.ext_iff]
        exact ⟨hpk, rfl⟩
    · rw [if_neg hpk] at hpq
      exact Or.inl ⟨hpq ▸ hp, hpq ▸ hpk⟩
  · rw [bucketAdd, if_neg hk] at h
    rcases List.mem_append.mp h with h' | h'
    · refine Or.inl ⟨h', ?_⟩
      intro hqk
      exact hk (hqk ▸ mem_keysA h')
    · exact Or.inr (Or.inr ⟨hk, List.mem_singleton.mp h'⟩)

lemma groupsAux_spec (rest : List (String × Class)) :
    ∀ (acc : List (String × List String)) (done : List (String × Class)),
    (keysA acc).Nodup →
    (∀ g, g ∈ keysA acc ↔ ∃ p ∈ done, p.2.group = g) →
    (∀ gl ∈ acc, gl.2 = (done.filter (fun p => decide (p.2.group = gl.1))).map Prod.fst) →
    ((keysA (rest.foldl (fun a p => bucketAdd a p.2.group p.1) acc)).Nodup ∧
     (∀ g, g ∈ keysA (rest.foldl (fun a p => bucketAdd a p.2.group p.1) acc) ↔
        ∃ p ∈ done ++ rest, p.2.group = g) ∧
     (∀ gl ∈ rest.foldl (fun a p => bucketAdd a p.2.group p.1) acc,
        gl.2 = ((done ++ rest).filter (fun p => decide (p.2.group = gl.1))).map Prod.fst)) := by
  induction rest with
  | nil =>
    intro acc done h1 h2 h3
    rw [List.foldl_nil]
    refine ⟨h1, ?_, ?_⟩
    · intro g
      rw [List.append_nil]
      exact h2 g
    · intro gl hgl
      rw [List.append_nil]
      exact h3 gl hgl
  | cons p rs ih =>
    intro acc done h1 h2 h3
    have hstep := ih (bucketAdd acc p.2.group p.1) (done ++ [p])
      (keysA_bucketAdd_nodup _ _ _ h1)
      (by
        intro g
        rw [keysA_bucketAdd_mem, h2]
        constructor
        · rintro (⟨q, hq, hg⟩ | rfl)
          · exact ⟨q, List.mem_append_left _ hq, hg⟩
          · exact ⟨p, List.mem_append_right _ (List.mem_singleton_self p), rfl⟩
        · rintro ⟨q, hq, hg⟩
          rcases List.mem_append.mp hq with hq' | hq'
          · exact Or.inl ⟨q, hq', hg⟩
          · rw [List.mem_singleton.mp hq'] at hg
            exact Or.inr hg.symm)
      (by
        intro gl hgl
        rcases mem_bucketAdd _ _ _ _ hgl with ⟨hmem, hne⟩ | ⟨l, hl, rfl⟩ | ⟨hnk, rfl⟩
        · rw [h3 gl hmem, List.filter_append]
          have : List.filter (fun q => decide (q.2.group = gl.1)) [p] = [] := by
            simp only [List.filter_cons, List.filter_nil]
            rw [if_neg]
            simp only [decide_eq_true_eq]
            intro hg
            exact hne (by rw [← hg])
          rw [this, List.append_nil]
        · rw [List.filter_append]
          have : List.filter (fun q => decide (q.2.group = (p.2.group, l ++ [p.1]).1)) [p] = [p] := by
            simp
          rw [this, List.map_append, ← h3 (p.2.group, l) hl]
          simp
        · rw [List.filter_append]
          have hd : List.filter (fun q => decide (q.2.group = (p.2.group, [p.1]).1)) done = [] := by
            refine List.filter_eq_nil_iff.mpr ?_
            intro q hq
            simp only [decide_eq_true_eq]
            intro hg
            exact hnk ((h2 p.2.group).mpr ⟨q, hq, hg⟩)
          have hp : List.filter (fun q => decide (q.2.group = (p.2.group, [p.1]).1)) [p] = [p] := by
            simp
          rw [hd, hp]
          simp)
    rw [List.foldl_cons]
    refine ⟨hstep.1, ?_, ?_⟩
    · intro g
      rw [hstep.2.1 g]
      constructor
      · rintro ⟨q, hq, hg⟩
        refine ⟨q, ?_, hg⟩
        rw [List.append_assoc] at hq
        simpa using hq
      · rintro ⟨q, hq, hg⟩
        refine ⟨q, ?_, hg⟩
        rw [List.append_assoc]
        simpa using hq
    · intro gl hgl
      have := hstep.2.2 gl hgl
      rw [this, List.append_assoc]
      simp

lemma groupsOf_spec (classes : List (String × Class)) :
    (keysA (groupsOf classes)).Nodup ∧
    (∀ g, g ∈ keysA (groupsOf classes) ↔ ∃ p ∈ classes, p.2.group = g) ∧
    (∀ gl ∈ groupsOf classes,
      gl.2 = (classes.filter (fun p => decide (p.2.group = gl.1))).map Prod.fst) := by
  have := groupsAux_spec classes [] [] (by simp [keysA]) (by simp [keysA]) (by simp)
  simpa [groupsOf] using this

/-! Lemmas about the toposort rounds. -/

lemma levelOrdered_subset (data : List (String × List String)) (x : String)
    (h : x ∈ levelOrdered data) : x ∈ keysA data := by
  rcases List.mem_map.mp h with ⟨p, hp, rfl⟩
  exact mem_keysA (List.mem_of_mem_filter hp)

lemma levelOrdered_sublist (data : List (String × List String)) :
    List.Sublist (levelOrdered data) (keysA data) :=
  List.Sublist.map Prod.fst (List.filter_sublist data)

lemma keysA_levelRest_eq (data : List (String × List String)) :
    keysA (levelRest data) =
      (data.filter (fun p => decide (p.1 ∉ levelOrdered data))).map Prod.fst := by
  rw [levelRest, keysA, List.map_map]
  rfl

lemma keysA_levelRest_sublist (data : List (String × List String)) :
    List.Sublist (keysA (levelRest data)) (keysA data) := by
  rw [keysA_levelRest_eq]
  exact List.Sublist.map Prod.fst (List.filter_sublist data)

lemma keysA_levelRest_mem (data : List (String × List String)) (x : String) :
    x ∈ keysA (levelRest data) ↔ x ∈ keysA data ∧ x ∉ levelOrdered data := by
  rw [keysA_levelRest_eq]
  constructor
  · intro h
    rcases List.mem_map.mp h with ⟨p, hp, rfl⟩
    rcases List.mem_filter.mp hp with ⟨hp1, hp2⟩
    exact ⟨mem_keysA hp1, by simpa using hp2⟩
  · rintro ⟨h1, h2⟩
    rcases List.mem_map.mp h1 with ⟨p, hp, rfl⟩
    exact List.mem_map_of_mem Prod.fst (List.mem_filter.mpr ⟨hp, by simpa using h2⟩)

lemma sortNames_mem (l : List String) (x : String) : x ∈ sortNames l ↔ x ∈ l :=
  (List.perm_insertionSort _ l).mem_iff

lemma sortNames_nodup (l : List String) (h : l.Nodup) : (sortNames l).Nodup :=
  ((List.perm_insertionSort _ l).nodup_iff).mpr h

lemma tsRun_mem : ∀ (fuel : Nat) (data : List (String × List String)) (out : List String),
    tsRun fuel data = .ok out →
    ((∀ x, x ∈ out ↔ x ∈ keysA data) ∧ ((keysA data).Nodup → out.Nodup)) := by
  intro fuel
  induction fuel with
  | zero =>
    intro data out h
    rw [tsRun] at h
    by_cases hd : data = []
    · rw [if_pos hd] at h
      obtain rfl := (Except.ok.injEq _ _).mp h
      subst hd
      exact ⟨by simp [keysA], fun _ => List.nodup_nil⟩
    · rw [if_neg hd] at h
      simp at h
  | succ f ih =>
    intro data out h
    rw [tsRun] at h
    by_cases hd : data = []
    · rw [if_pos hd] at h
      obtain rfl := (Except.ok.injEq _ _).mp h
      subst hd
      exact ⟨by simp [keysA], fun _ => List.nodup_nil⟩
    · rw [if_neg hd] at h
      by_cases ho : levelOrdered data = []
      · simp only [ho, if_pos] at h
        simp at h
      · simp only [if_neg ho] at h
        cases hrec : tsRun f (levelRest data) with
        | error e => rw [hrec] at h; simp at h
        | ok tail =>
          rw [hrec] at h
          obtain rfl := (Except.ok.injEq _ _).mp h
          obtain ⟨ihmem, ihnd⟩ := ih (levelRest data) tail hrec
          constructor
          · intro x
            rw [List.mem_append, sortNames_mem, ihmem, keysA_levelRest_mem]
            constructor
            · rintro (h1 | ⟨h1, _⟩)
              · exact levelOrdered_subset data x h1
              · exact h1
            · intro h1
              by_cases h2 : x ∈ levelOrdered data
              · exact Or.inl h2
              · exact Or.inr ⟨h1, h2⟩
          · intro hnd
            refine List.nodup_append.mpr ⟨?_, ?_, ?_⟩
            · exact sortNames_nodup _ ((levelOrdered_sublist data).nodup hnd)
            · exact ihnd ((keysA_levelRest_sublist data).nodup hnd)
            · intro a ha hb
              have h1 : a ∈ levelOrdered data := (sortNames_mem _ a).mp ha
              have h2 := (keysA_levelRest_mem data a).mp ((ihmem a).mp hb)
              exact h2.2 h1

lemma tsRun_before : ∀ (fuel : Nat) (data : List (String × List String)),
    (keysA data).Nodup →
    (∀ p ∈ data, ∀ x ∈ p.2, x ∈ keysA data ∧ x ≠ p.1) →
    ∀ out, tsRun fuel data = .ok out →
    ∀ p ∈ data, ∀ x ∈ p.2, ∃ l1 l2, out = l1 ++ p.1 :: l2 ∧ x ∈ l1 := by
  intro fuel
  induction fuel with
  | zero =>
    intro data hnd hcl out h p hp x hx
    rw [tsRun] at h
    by_cases hd : data = []
    · subst hd
      simp at hp
    · rw [if_neg hd] at h
      simp at h
  | succ f ih =>
    intro data hnd hcl out h p hp x hx
    rw [tsRun] at h
    by_cases hd : data = []
    · subst hd
      simp at hp
    · rw [if_neg hd] at h
      by_cases ho : levelOrdered data = []
      · simp only [ho, if_pos] at h
        simp at h
      · simp only [if_neg ho] at h
        cases hrec : tsRun f (levelRest data) with
        | error e => rw [hrec] at h; simp at h
        | ok tail =>
          rw [hrec] at h
          obtain rfl := (Except.ok.injEq _ _).mp h
          have hp_not_ord : p.1 ∉ levelOrdered data := by
            intro hmem
            rcases List.mem_map.mp hmem with ⟨q, hq, hq1⟩
            rcases List.mem_filter.mp hq with ⟨hq2, hq3⟩
            have hqp : q = p := entry_unique hnd hq2 hp hq1
            subst hqp
            have hq4 : q.2 = [] := List.isEmpty_iff.mp hq3
            rw [hq4] at hx
            simp at hx
          have hp_rest : (p.1, p.2.filter (fun y => decide (y ∉ levelOrdered data))) ∈
              levelRest data := by
            refine List.mem_map.mpr ⟨p, ?_, rfl⟩
            exact List.mem_filter.mpr ⟨hp, by simpa using hp_not_ord⟩
          by_cases hxo : x ∈ levelOrdered data
          · have hp_tail : p.1 ∈ tail := by
              have := (tsRun_mem f (levelRest data) tail hrec).1 p.1
              rw [this, keysA_levelRest_mem]
              exact ⟨mem_keysA hp, hp_not_ord⟩
            rcases List.append_of_mem hp_tail with ⟨t1, t2, rfl⟩
            refine ⟨sortNames (levelOrdered data) ++ t1, t2, by rw [List.append_assoc], ?_⟩
            exact List.mem_append_left _ ((sortNames_mem _ x).mpr hxo)
          · have hnd' : (keysA (levelRest data)).Nodup :=
              (keysA_levelRest_sublist data).nodup hnd
            have hcl' : ∀ q ∈ levelRest data, ∀ y ∈ q.2,
                y ∈ keysA (levelRest data) ∧ y ≠ q.1 := by
              intro q hq y hy
              rcases List.mem_map.mp hq with ⟨q0, hq0, rfl⟩
              rcases List.mem_filter.mp hq0 with ⟨hq1, _⟩
              rcases List.mem_filter.mp hy with ⟨hy1, hy2⟩
              have := hcl q0 hq1 y hy1
              exact ⟨(keysA_levelRest_mem data y).mpr ⟨this.1, by simpa using hy2⟩, this.2⟩
            have hx' : x ∈ (p.1, p.2.filter (fun y => decide (y ∉ levelOrdered data))).2 := by
              exact List.mem_filter.mpr ⟨hx, by simpa using hxo⟩
            rcases ih (levelRest data) hnd' hcl' tail hrec _ hp_rest x hx' with ⟨t1, t2, rfl, hxt⟩
            refine ⟨sortNames (levelOrdered data) ++ t1, t2, by rw [List.append_assoc], ?_⟩
            exact List.mem_append_right _ hxt

/-! Lemmas about `toposortFlatten`. -/

lemma keysA_tsPrepared (data : List (String × List String)) :
    keysA (tsPrepared data) = keysA data := by
  rw [tsPrepared, keysA, List.map_map]
  rfl

lemma mem_tsPrepared (data : List (String × List String)) (q : String × List String) :
    q ∈ tsPrepared data ↔
      ∃ p ∈ data, q = (p.1, p.2.filter (fun x => decide (x ≠ p.1))) := by
  rw [tsPrepared, List.mem_map]
  constructor
  · rintro ⟨p, hp, rfl⟩
    exact ⟨p, hp, rfl⟩
  · rintro ⟨p, hp, rfl⟩
    exact ⟨p, hp, rfl⟩

lemma tsExtras_mem (data : List (String × List String)) (x : String) :
    x ∈ tsExtras data ↔ (∃ p ∈ data, x ∈ p.2 ∧ x ≠ p.1) ∧ x ∉ keysA data := by
  rw [tsExtras, List.mem_dedup, List.mem_filter]
  rw [keysA_tsPrepared]
  constructor
  · rintro ⟨h1, h2⟩
    refine ⟨?_, by simpa using h2⟩
    rcases List.mem_flatMap.mp h1 with ⟨q, hq, hx⟩
    rcases (mem_tsPrepared data q).mp hq with ⟨p, hp, rfl⟩
    rcases List.mem_filter.mp hx with ⟨hx1, hx2⟩
    exact ⟨p, hp, hx1, by simpa using hx2⟩
  · rintro ⟨⟨p, hp, hx1, hx2⟩, h2⟩
    refine ⟨?_, by simpa using h2⟩
    refine List.mem_flatMap.mpr ⟨(p.1, p.2.filter (fun y => decide (y ≠ p.1))), ?_, ?_⟩
    · exact (mem_tsPrepared data _).mpr ⟨p, hp, rfl⟩
    · exact List.mem_filter.mpr ⟨hx1, by simpa using hx2⟩

lemma tsFull_keys (data : List (String × List String)) :
    keysA (tsPrepared data ++ (tsExtras data).map (fun x => (x, ([] : List String)))) =
      keysA data ++ tsExtras data := by
  rw [keysA_append, keysA_tsPrepared]
  have : keysA ((tsExtras data).map (fun x => (x, ([] : List String)))) = tsExtras data := by
    rw [keysA, List.map_map]
    exact List.map_id _
  rw [this]

lemma tsFull_keys_nodup (data : List (String × List String))
    (h : (keysA data).Nodup) :
    (keysA (tsPrepared data ++ (tsExtras data).map (fun x => (x, ([] : List String))))).Nodup := by
  rw [tsFull_keys]
  refine List.nodup_append.mpr ⟨h, ?_, ?_⟩
  · rw [tsExtras]
    exact List.nodup_dedup _
  · intro a ha hb
    exact ((tsExtras_mem data a).mp hb).2 ha

lemma toposortFlatten_mem (data : List (String × List String)) (out : List String)
    (h : toposortFlatten data = .ok out) :
    (∀ x, x ∈ out ↔ (x ∈ keysA data ∨ ∃ p ∈ data, x ∈ p.2)) ∧
    ((keysA data).Nodup → out.Nodup) := by
  rw [toposortFlatten] at h
  obtain ⟨hmem, hnd⟩ := tsRun_mem _ _ _ h
  constructor
  · intro x
    rw [hmem x, tsFull_keys, List.mem_append, tsExtras_mem]
    constructor
    · rintro (h1 | ⟨⟨p, hp, hx, _⟩, _⟩)
      · exact Or.inl h1
      · exact Or.inr ⟨p, hp, hx⟩
    · rintro (h1 | ⟨p, hp, hx⟩)
      · exact Or.inl h1
      · by_cases hk : x ∈ keysA data
        · exact Or.inl hk
        · refine Or.inr ⟨⟨p, hp, hx, ?_⟩, hk⟩
          intro hxp
          exact hk (hxp ▸ mem_keysA hp)
  · intro h'
    exact hnd (tsFull_keys_nodup data h')

lemma toposortFlatten_before (data : List (String × List String)) (out : List String)
    (hnd : (keysA data).Nodup) (h : toposortFlatten data = .ok out) :
    ∀ p ∈ data, ∀ x ∈ p.2, x ≠ p.1 → ∃ l1 l2, out = l1 ++ p.1 :: l2 ∧ x ∈ l1 := by
  intro p hp x hx hxp
  rw [toposortFlatten] at h
  have hclfull : ∀ q ∈ tsPrepared data ++ (tsExtras data).map (fun x => (x, ([] : List String))),
      ∀ y ∈ q.2, y ∈ keysA (tsPrepared data ++ (tsExtras data).map (fun x => (x, ([] : List String)))) ∧
        y ≠ q.1 := by
    intro q hq y hy
    rcases List.mem_append.mp hq with hq' | hq'
    · rcases (mem_tsPrepared data q).mp hq' with ⟨p0, hp0, rfl⟩
      rcases List.mem_filter.mp hy with ⟨hy1, hy2⟩
      refine ⟨?_, by simpa using hy2⟩
      rw [tsFull_keys, List.mem_append]
      by_cases hk : y ∈ keysA data
      · exact Or.inl hk
      · exact Or.inr ((tsExtras_mem data y).mpr ⟨⟨p0, hp0, hy1, by simpa using hy2⟩, hk⟩)
    · rcases List.mem_map.mp hq' with ⟨z, _, rfl⟩
      simp at hy
  have hfull := tsRun_before _ _ (tsFull_keys_nodup data hnd) hclfull out h
  have hq : (p.1, p.2.filter (fun y => decide (y ≠ p.1))) ∈
      tsPrepared data ++ (tsExtras data).map (fun x => (x, ([] : List String))) :=
    List.mem_append_left _ ((mem_tsPrepared data _).mpr ⟨p, hp, rfl⟩)
  have hx' : x ∈ (p.1, p.2.filter (fun y => decide (y ≠ p.1))).2 :=
    List.mem_filter.mpr ⟨hx, by simpa using hxp⟩
  exact hfull _ hq x hx'

/-! Lemmas about the re-insertion loop and the group loop. -/

lemma insertClasses_spec (classes : List (String × Class)) :
    ∀ (names : List String) (ret out : List (String × Class)),
    insertClasses classes ret names = .ok out →
    (BoundIn classes ret → BoundIn classes out) ∧
    ((keysA ret).Nodup → (keysA out).Nodup) ∧
    (∀ x ∈ keysA ret, x ∈ keysA out) ∧
    (∀ n ∈ names, n ∈ keysA out) := by
  intro names
  induction names with
  | nil =>
    intro ret out h
    simp only [insertClasses] at h
    injection h with h2
    subst h2
    exact ⟨fun hI => hI, fun hnd => hnd, fun x hx => hx, by simp⟩
  | cons n rest ih =>
    intro ret out h
    rw [insertClasses] at h
    cases hc : lookupA classes n with
    | none => rw [hc] at h; simp at h
    | some c =>
      rw [hc] at h
      obtain ⟨ih1, ih2, ih3, ih4⟩ := ih (pyInsert ret n c) out h
      refine ⟨?_, ?_, ?_, ?_⟩
      · intro hI
        refine ih1 ?_
        intro q hq
        rcases mem_pyInsert _ _ _ _ hq with hq' | rfl
        · exact hI q hq'
        · exact hc
      · intro hnd
        exact ih2 (keysA_pyInsert_nodup _ _ _ hnd)
      · intro x hx
        exact ih3 x ((keysA_pyInsert_mem _ _ _ x).mpr (Or.inl hx))
      · intro m hm
        rcases List.mem_cons.mp hm with rfl | hm'
        · exact ih3 m ((keysA_pyInsert_mem _ _ _ m).mpr (Or.inr rfl))
        · exact ih4 m hm'

lemma keysA_groupInheritance (classes : List (String × Class))
    (gp : String × List String) : keysA (groupInheritance classes gp) = gp.2 := by
  rw [groupInheritance, keysA, List.map_map]
  exact List.map_id _

lemma groupsFold_spec (classes : List (String × Class)) :
    ∀ (gs : List (String × List String)) (ret out : List (String × Class)),
    groupsFold classes ret gs = .ok out →
    (BoundIn classes ret → BoundIn classes out) ∧
    ((keysA ret).Nodup → (keysA out).Nodup) ∧
    (∀ x ∈ keysA ret, x ∈ keysA out) ∧
    (∀ gp ∈ gs, ∀ n ∈ gp.2, n ∈ keysA out) := by
  intro gs
  induction gs with
  | nil =>
    intro ret out h
    simp only [groupsFold] at h
    injection h with h2
    subst h2
    exact ⟨fun hI => hI, fun hnd => hnd, fun x hx => hx, by simp⟩
  | cons gp rest ih =>
    intro ret out h
    rw [groupsFold] at h
    cases hs : groupStep classes ret gp with
    | error e => rw [hs] at h; simp at h
    | ok ret' =>
      rw [hs] at h
      rw [groupStep] at hs
      cases htf : toposortFlatten (groupInheritance classes gp) with
      | error e => rw [htf] at hs; simp at hs
      | ok names =>
        rw [htf] at hs
        obtain ⟨ic1, ic2, ic3, ic4⟩ := insertClasses_spec classes names ret ret' hs
        obtain ⟨ih1, ih2, ih3, ih4⟩ := ih ret' out h
        refine ⟨fun hI => ih1 (ic1 hI), fun hnd => ih2 (ic2 hnd),
          fun x hx => ih3 x (ic3 x hx), ?_⟩
        intro gq hgq m hm
        rcases List.mem_cons.mp hgq with rfl | hgq'
        · refine ih3 m (ic4 m ?_)
          have := (toposortFlatten_mem _ _ htf).1 m
          rw [this, keysA_groupInheritance]
          exact Or.inl hm
        · exact ih4 gq hgq' m hm

lemma sortGroups_mem (gs : List (String × List String)) (gp : String × List String) :
    gp ∈ sortGroups gs ↔ gp ∈ gs :=
  (List.perm_insertionSort _ gs).mem_iff

/-- Core permutation fact: when the grouped topological sorter succeeds on a
mapping with distinct names, its result is a permutation of the input
bindings: same keys, each bound to the identical class. -/
lemma toposort_ok_perm (classes out : List (String × Class))
    (hnd : (keysA classes).Nodup)
    (h : _toposort_classes_by_group classes = .ok out) : out.Perm classes := by
  rw [_toposort_classes_by_group] at h
  obtain ⟨hI, hnd', hmono, hcover⟩ := groupsFold_spec classes _ _ _ h
  have hIout : BoundIn classes out := hI (by intro q hq; simp at hq)
  have hndout : (keysA out).Nodup := hnd' List.nodup_nil
  obtain ⟨hgnd, hgmem, hgch⟩ := groupsOf_spec classes
  have hkeys : ∀ x, x ∈ keysA out ↔ x ∈ keysA classes := by
    intro x
    constructor
    · intro hx
      rcases List.mem_map.mp hx with ⟨q, hq, rfl⟩
      exact mem_keysA (lookupA_mem (hIout q hq))
    · intro hx
      rcases List.mem_map.mp hx with ⟨p, hp, rfl⟩
      have hg : p.2.group ∈ keysA (groupsOf classes) :=
        (hgmem p.2.group).mpr ⟨p, hp, rfl⟩
      rcases List.mem_map.mp hg with ⟨gl, hgl, hgl1⟩
      have hmem_bucket : p.1 ∈ gl.2 := by
        rw [hgch gl hgl]
        refine List.mem_map_of_mem Prod.fst (List.mem_filter.mpr ⟨hp, ?_⟩)
        simp [hgl1]
      exact hcover gl ((sortGroups_mem _ gl).mpr hgl) p.1 hmem_bucket
  have hmemiff : ∀ q : String × Class, q ∈ out ↔ q ∈ classes := by
    intro q
    constructor
    · intro hq
      exact lookupA_mem (hIout q hq)
    · intro hq
      have hk : q.1 ∈ keysA out := (hkeys q.1).mpr (mem_keysA hq)
      rcases List.mem_map.mp hk with ⟨p, hp, hp1⟩
      have h1 : lookupA classes p.1 = some p.2 := hIout p hp
      have h2 : lookupA classes q.1 = some q.2 := mem_lookupA hnd hq
      rw [hp1] at h1
      rw [h1] at h2
      have : p = q := by
        rw [Prod.ext_iff]
        exact ⟨hp1, Option.some.inj h2⟩
      exact this ▸ hp
  refine List.perm_of_nodup_nodup_toFinset_eq ?_ ?_ ?_
  · exact List.Nodup.of_map Prod.fst hndout
  · exact List.Nodup.of_map Prod.fst hnd
  · refine Finset.ext ?_
    intro q
    rw [List.mem_toFinset, List.mem_toFinset]
    exact hmemiff q

lemma insertClasses_fresh (classes : List (String × Class)) :
    ∀ (names : List String) (ret : List (String × Class)),
    names.Nodup →
    (∀ n ∈ names, n ∉ keysA ret) →
    (∀ n ∈ names, ∃ c, lookupA classes n = some c) →
    ∃ added, insertClasses classes ret names = .ok (ret ++ added) ∧
      added.map Prod.fst = names ∧ BoundIn classes added := by
  intro names
  induction names with
  | nil =>
    intro ret _ _ _
    refine ⟨[], ?_, rfl, ?_⟩
    · simp [insertClasses]
    · intro q hq
      simp at hq
  | cons n rest ih =>
    intro ret hnd hfresh hlook
    obtain ⟨c, hc⟩ := hlook n (List.mem_cons_self n rest)
    have hn_fresh : n ∉ keysA ret := hfresh n (List.mem_cons_self n rest)
    have hnd' := List.nodup_cons.mp hnd
    have hfresh' : ∀ m ∈ rest, m ∉ keysA (ret ++ [(n, c)]) := by
      intro m hm
      rw [keysA_append, List.mem_append]
      rintro (h1 | h1)
      · exact hfresh m (List.mem_cons_of_mem n hm) h1
      · simp only [keysA, List.map_cons, List.map_nil, List.mem_singleton] at h1
        exact hnd'.1 (h1 ▸ hm)
    obtain ⟨added, ha1, ha2, ha3⟩ := ih (ret ++ [(n, c)]) hnd'.2 hfresh'
      (fun m hm => hlook m (List.mem_cons_of_mem n hm))
    refine ⟨(n, c) :: added, ?_, ?_, ?_⟩
    · rw [insertClasses, hc]
      show insertClasses classes (pyInsert ret n c) rest = Except.ok (ret ++ (n, c) :: added)
      rw [pyInsert_fresh _ _ _ hn_fresh, ha1, List.append_assoc]
      rfl
    · rw [List.map_cons, ha2]
    · intro q hq
      rcases List.mem_cons.mp hq with rfl | hq'
      · exact hc
      · exact ha3 q hq'

/-- Claim C10 is refuted as stated: a cyclic bases relation, in which every
base is nevertheless a key of the mapping, makes the sorter raise the
toposort library's circular-dependency error instead of returning a
reordered mapping. -/
theorem toposort_preserves_counterexample :
    _toposort_classes_by_group [("A", cycA), ("B", cycB)] =
      .error "Cyclic dependencies exist among these items" ∧
    (∀ q ∈ [("A", cycA), ("B", cycB)], ∀ b ∈ q.2.bases,
      b ∈ keysA [("A", cycA), ("B", cycB)]) := by
  refine ⟨by decide, by decide⟩

/-- Claim C10, amended: whenever the grouped topological sorter succeeds on
a mapping with distinct names, the result is a permutation of the input
bindings: exactly the same key set, each key bound to the identical class
value; it only reorders, never adds, drops or modifies a class. -/
theorem toposort_preserves_bindings (classes out : List (String × Class))
    (hnd : (keysA classes).Nodup)
    (h : _toposort_classes_by_group classes = .ok out) :
    out.Perm classes ∧ (∀ q, q ∈ out ↔ q ∈ classes) ∧
      (∀ x, x ∈ keysA out ↔ x ∈ keysA classes) := by
  have hperm := toposort_ok_perm classes out hnd h
  refine ⟨hperm, fun q => hperm.mem_iff, fun x => ?_⟩
  exact (hperm.map Prod.fst).mem_iff

/-- Witness for `toposort_preserves_bindings` on a one-class schema. -/
theorem toposort_preserves_bindings_witness :
    ([("A", tieA)] : List (String × Class)).Perm [("A", tieA)] :=
  (toposort_preserves_bindings [("A", tieA)] [("A", tieA)] (by decide) (by decide)).1

/-- Claim C4 is refuted as stated: two classes with no ordering constraint,
declared in the order `B`, `A`, come out in the order `A`, `B`: the
toposort library sorts each level of the dependency graph
lexicographically, ignoring declaration order. -/
theorem toposort_ties_counterexample :
    _toposort_classes_by_group [("B", tieB), ("A", tieA)] =
      .ok [("A", tieA), ("B", tieB)] ∧
    tieB.bases = [] ∧ tieA.bases = [] ∧
    keysA [("B", tieB), ("A", tieA)] = ["B", "A"] ∧
    keysA [("A", tieA), ("B", tieB)] ≠ ["B", "A"] := by
  refine ⟨by decide, by decide, by decide, by decide, by decide⟩

lemma nodup_all_eq_singleton {α} (l : List α) (a : α) (hnd : l.Nodup)
    (hmem : a ∈ l) (hall : ∀ x ∈ l, x = a) : l = [a] := by
  cases l with
  | nil => simp at hmem
  | cons x rest =>
    have hx : x = a := hall x (List.mem_cons_self x rest)
    subst hx
    have hrest : rest = [] := by
      cases rest with
      | nil => rfl
      | cons y rest' =>
        have hy : y = x := hall y (List.mem_cons_of_mem x (List.mem_cons_self y rest'))
        have := (List.nodup_cons.mp hnd).1
        rw [hy] at this
        exact absurd (List.mem_cons_self x rest') this
    rw [hrest]

lemma tsRun_nil (f : Nat) : tsRun f [] = .ok [] := by
  rw [tsRun.eq_def]
  rw [if_pos rfl]

lemma tsRun_step (f : Nat) (data : List (String × List String)) (hne : data ≠ [])
    (ho : levelOrdered data ≠ []) :
    tsRun (f + 1) data = (match tsRun f (levelRest data) with
      | .error e => .error e
      | .ok tail => .ok (sortNames (levelOrdered data) ++ tail)) := by
  rw [tsRun.eq_def]
  rw [if_neg hne]
  show (if levelOrdered data = [] then Except.error "Cyclic dependencies exist among these items" else match tsRun f (levelRest data) with | Except.error e => Except.error e | Except.ok tail => Except.ok (sortNames (levelOrdered data) ++ tail)) = (match tsRun f (levelRest data) with | Except.error e => Except.error e | Except.ok tail => Except.ok (sortNames (levelOrdered data) ++ tail))
  rw [if_neg ho]

/-- Claim C4, amended: among classes with no ordering constraints at all
(a single group, no bases), the sorter emits the classes in ascending
lexicographic order of their names, not declaration order. -/
theorem toposort_ties_lexicographic (classes out : List (String × Class)) (g0 : String)
    (hnd : (keysA classes).Nodup)
    (hall : ∀ q ∈ classes, q.2.bases = [] ∧ q.2.group = g0)
    (h : _toposort_classes_by_group classes = .ok out) :
    keysA out = sortNames (keysA classes) := by
  by_cases hempty : classes = []
  · subst hempty
    have h0 : _toposort_classes_by_group ([] : List (String × Class)) =
        .ok [] := by decide
    rw [h0] at h
    injection h with h2
    subst h2
    rfl
  · obtain ⟨hgnd, hgmem, hgch⟩ := groupsOf_spec classes
    obtain ⟨p0, hp0⟩ := List.exists_mem_of_ne_nil classes hempty
    have hg0 : g0 ∈ keysA (groupsOf classes) :=
      (hgmem g0).mpr ⟨p0, hp0, (hall p0 hp0).2⟩
    have hkeys_single : keysA (groupsOf classes) = [g0] := by
      refine nodup_all_eq_singleton _ _ hgnd hg0 ?_
      intro g hgk
      rcases (hgmem g).mp hgk with ⟨p, hp, hpg⟩
      rw [← hpg, (hall p hp).2]
    have hgroups : groupsOf classes = [(g0, keysA classes)] := by
      cases hG : groupsOf classes with
      | nil => rw [hG] at hkeys_single; simp [keysA] at hkeys_single
      | cons gl rest =>
        rw [hG] at hkeys_single
        rw [keysA, List.map_cons] at hkeys_single
        have h1 : gl.1 = g0 := (List.cons.injEq _ _ _ _).mp hkeys_single |>.1
        have h2 : rest = [] :=
          List.map_eq_nil_iff.mp ((List.cons.injEq _ _ _ _).mp hkeys_single).2
        have h3 : gl.2 = keysA classes := by
          have := hgch gl (hG ▸ List.mem_cons_self gl rest)
          rw [this, h1]
          have hfeq : classes.filter (fun p => decide (p.2.group = g0)) = classes := by
            refine List.filter_eq_self.mpr ?_
            intro q hq
            simp [(hall q hq).2]
          rw [hfeq]
          rfl
        rw [h2]
        have : gl = (g0, keysA classes) := by
          rw [Prod.ext_iff]
          exact ⟨h1, h3⟩
        rw [this]
    have hinh : groupInheritance classes (g0, keysA classes) =
        (keysA classes).map (fun n => (n, ([] : List String))) := by
      rw [groupInheritance]
      refine List.map_congr_left ?_
      intro n hn
      rcases List.mem_map.mp hn with ⟨p, hp, rfl⟩
      have hpe : (p.1, p.2) = p := by
        rw [Prod.ext_iff]
        exact ⟨rfl, rfl⟩
      have hlk : lookupA classes p.1 = some p.2 := mem_lookupA hnd (hpe ▸ hp)
      rw [hlk]
      show (p.1, p.2.bases) = (p.1, [])
      rw [(hall p hp).1]
    have hks_ne : keysA classes ≠ [] := by
      intro hk
      exact hempty (List.map_eq_nil_iff.mp hk)
    have hdata_facts : ∀ q ∈ (keysA classes).map (fun n => (n, ([] : List String))),
        q.2 = [] := by
      intro q hq
      rcases List.mem_map.mp hq with ⟨n, _, rfl⟩
      rfl
    have hprep : tsPrepared ((keysA classes).map (fun n => (n, ([] : List String)))) =
        (keysA classes).map (fun n => (n, ([] : List String))) := by
      rw [tsPrepared, List.map_map]
      refine List.map_congr_left ?_
      intro n _
      rfl
    have hext : tsExtras ((keysA classes).map (fun n => (n, ([] : List String)))) = [] := by
      rw [tsExtras, hprep]
      have : ((keysA classes).map (fun n => (n, ([] : List String)))).flatMap Prod.snd = [] := by
        refine List.flatMap_eq_nil_iff.mpr ?_
        intro q hq
        exact hdata_facts q hq
      rw [this]
      rfl
    have hord : levelOrdered ((keysA classes).map (fun n => (n, ([] : List String)))) =
        keysA classes := by
      rw [levelOrdered]
      have hfeq : ((keysA classes).map (fun n => (n, ([] : List String)))).filter
          (fun p => p.2.isEmpty) = (keysA classes).map (fun n => (n, ([] : List String))) := by
        refine List.filter_eq_self.mpr ?_
        intro q hq
        rw [hdata_facts q hq]
        rfl
      rw [hfeq, List.map_map]
      exact List.map_id _
    have hrest : levelRest ((keysA classes).map (fun n => (n, ([] : List String)))) = [] := by
      rw [levelRest]
      have hfeq : ((keysA classes).map (fun n => (n, ([] : List String)))).filter
          (fun p => decide (p.1 ∉ levelOrdered ((keysA classes).map (fun n => (n, ([] : List String)))))) = [] := by
        refine List.filter_eq_nil_iff.mpr ?_
        intro q hq
        rw [hord]
        rcases List.mem_map.mp hq with ⟨n, hn, rfl⟩
        simp [hn]
      rw [hfeq]
      rfl
    have htf : toposortFlatten ((keysA classes).map (fun n => (n, ([] : List String)))) =
        .ok (sortNames (keysA classes)) := by
      rw [toposortFlatten, hprep, hext]
      obtain ⟨k, ks', hks⟩ := List.exists_cons_of_ne_nil hks_ne
      have hlen : ((keysA classes).map (fun n => (n, ([] : List String)))).length + ([] : List String).length =
          ks'.length + 1 := by
        rw [List.length_map, hks]
        rfl
      have hne : ((keysA classes).map (fun n => (n, ([] : List String)))) ≠ [] := by
        intro hcon
        exact hks_ne (List.map_eq_nil_iff.mp hcon)
      have ho : levelOrdered ((keysA classes).map (fun n => (n, ([] : List String)))) ≠ [] := by
        rw [hord]
        exact hks_ne
      rw [List.map_nil, List.append_nil, hlen, tsRun_step ks'.length _ hne ho, hrest, tsRun_nil, hord]
      show Except.ok (sortNames (keysA classes) ++ []) = Except.ok (sortNames (keysA classes))
      rw [List.append_nil]
    obtain ⟨added, hadd1, hadd2, _⟩ := insertClasses_fresh classes (sortNames (keysA classes)) []
      (sortNames_nodup _ hnd)
      (by intro n _; simp [keysA])
      (by
        intro n hn
        have hn' : n ∈ keysA classes := (sortNames_mem _ n).mp hn
        rcases List.mem_map.mp hn' with ⟨p, hp, rfl⟩
        have hpe : (p.1, p.2) = p := by
          rw [Prod.ext_iff]
          exact ⟨rfl, rfl⟩
        exact ⟨p.2, mem_lookupA hnd (hpe ▸ hp)⟩)
    have hsort : sortGroups [((g0 : String), keysA classes)] = [(g0, keysA classes)] := by
      rw [sortGroups]
      rfl
    have hstep : groupStep classes [] (g0, keysA classes) = .ok added := by
      rw [groupStep, hinh, htf]
      show insertClasses classes [] (sortNames (keysA classes)) = .ok added
      rw [hadd1, List.nil_append]
    rw [_toposort_classes_by_group, hgroups, hsort, groupsFold, hstep] at h
    have h2 : Except.ok added = Except.ok out := h
    injection h2 with h3
    subst h3
    rw [← hadd2]
    rfl

/-- Witness for `toposort_ties_lexicographic` at the two-class demo. -/
theorem toposort_ties_lexicographic_witness :
    keysA [("A", tieA), ("B", tieB)] = sortNames (keysA [("B", tieB), ("A", tieA)]) :=
  toposort_ties_lexicographic [("B", tieB), ("A", tieA)] [("A", tieA), ("B", tieB)] ""
    (by decide) (by decide) (by decide)

/-! Lemmas about the loader (claim C1). -/

lemma processEntry_cls (dn kn : List String) (st : LoadState) (n : String)
    (d : RawClassDecl) (h1 : n ∉ dn) (h2 : n ≠ "__includes")
    (h3 : pyStartsDunder n = false) :
    processEntry dn kn st (n, .cls d) = (match _get_class d with
      | .error err => .error err
      | .ok c =>
        if st.classes ≠ [] ∧ c.bases = [] then
          .error ("Only one root class allowed, found second root " ++ n)
        else match c.check_types kn with
          | .error err => .error err
          | .ok _ => .ok { st with classes := st.classes ++ [(n, c)] }) := by
  simp [processEntry, h1, h2, h3]

lemma loadRaw_append_error (dn kn : List String) (pre : List (String × ModuleEntry))
    (x : String × ModuleEntry) (rest : List (String × ModuleEntry)) (st : LoadState)
    (e : String) (hpre : loadRaw dn kn pre = .ok st)
    (hx : processEntry dn kn st x = .error e) :
    loadRaw dn kn (pre ++ x :: rest) = .error e := by
  rw [loadRaw, List.foldlM_append]
  rw [loadRaw] at hpre
  rw [hpre]
  show List.foldlM (processEntry dn kn) st (x :: rest) = .error e
  rw [List.foldlM_cons, hx]
  rfl

lemma processEntry_classes_shape (dn kn : List String) (st : LoadState)
    (e : String × ModuleEntry) (st' : LoadState)
    (h : processEntry dn kn st e = .ok st') :
    st'.classes = st.classes ∨
    ∃ c, st'.classes = st.classes ++ [(e.1, c)] ∧
      (st.classes = [] ∨ c.bases ≠ []) := by
  obtain ⟨n, data⟩ := e
  by_cases h1 : n ∈ dn
  · simp [processEntry, h1] at h
    rw [← h]
    exact Or.inl rfl
  · by_cases h2 : n = "__includes"
    · subst h2
      cases data with
      | strList l =>
        simp [processEntry, h1] at h
        rw [← h]
        exact Or.inl rfl
      | cls d => simp [processEntry, h1] at h
    · by_cases h3 : pyStartsDunder n = true
      · simp [processEntry, h1, h2, h3] at h
        rw [← h]
        exact Or.inl rfl
      · have h3' : pyStartsDunder n = false := by simpa using h3
        cases data with
        | strList l => simp [processEntry, h1, h2, h3'] at h
        | cls d =>
          rw [processEntry_cls dn kn st n d h1 h2 h3'] at h
          cases hg : _get_class d with
          | error err => rw [hg] at h; simp at h
          | ok c =>
            rw [hg] at h
            replace h : (if st.classes ≠ [] ∧ c.bases = [] then (Except.error ("Only one root class allowed, found second root " ++ n) : Except String LoadState) else match c.check_types kn with | Except.error err => Except.error err | Except.ok _ => Except.ok { st with classes := st.classes ++ [(n, c)] }) = Except.ok st' := h
            by_cases hroot : st.classes ≠ [] ∧ c.bases = []
            · rw [if_pos hroot] at h
              simp at h
            · rw [if_neg hroot] at h
              cases hck : c.check_types kn with
              | error err => rw [hck] at h; simp at h
              | ok u =>
                rw [hck] at h
                injection h with h4
                subst h4
                refine Or.inr ⟨c, rfl, ?_⟩
                rcases Decidable.not_and_iff_or_not.mp hroot with hl | hr
                · exact Or.inl (Decidable.not_not.mp hl)
                · exact Or.inr hr

lemma loadFold_root_bound (dn kn : List String) :
    ∀ (entries : List (String × ModuleEntry)) (st0 st : LoadState),
    List.foldlM (processEntry dn kn) st0 entries = .ok st →
    (st0.classes.filter (fun q => decide (q.2.bases = []))).length ≤ 1 →
    (st.classes.filter (fun q => decide (q.2.bases = []))).length ≤ 1 := by
  intro entries
  induction entries with
  | nil =>
    intro st0 st h hb
    have h' : Except.ok st0 = Except.ok st := h
    injection h' with h2
    subst h2
    exact hb
  | cons e es ih =>
    intro st0 st h hb
    rw [List.foldlM_cons] at h
    cases hpe : processEntry dn kn st0 e with
    | error err =>
      rw [hpe] at h
      have hbad : (Except.error err : Except String LoadState) = Except.ok st := h
      simp at hbad
    | ok st1 =>
      rw [hpe] at h
      have h' : List.foldlM (processEntry dn kn) st1 es = .ok st := h
      refine ih st1 st h' ?_
      rcases processEntry_classes_shape dn kn st0 e st1 hpe with hsame | ⟨c, happ, hdisj⟩
      · rw [hsame]
        exact hb
      · rw [happ, List.filter_append]
        by_cases hc : c.bases = []
        · rcases hdisj with hempty | hne
          · rw [hempty]
            simp only [List.filter_nil, List.nil_append]
            exact le_trans (List.length_filter_le _ _) (by simp)
          · exact absurd hc hne
        · have hfe : List.filter (fun q => decide (q.2.bases = [])) [(e.1, c)] = [] := by
            simp [hc]
          rw [hfe, List.append_nil]
          exact hb

lemma loadFold_keys_sublist (dn kn : List String) :
    ∀ (entries : List (String × ModuleEntry)) (st0 st : LoadState),
    List.foldlM (processEntry dn kn) st0 entries = .ok st →
    ∃ added, st.classes = st0.classes ++ added ∧
      List.Sublist (added.map Prod.fst) (entries.map Prod.fst) := by
  intro entries
  induction entries with
  | nil =>
    intro st0 st h
    have h' : Except.ok st0 = Except.ok st := h
    injection h' with h2
    subst h2
    exact ⟨[], by simp, by simp⟩
  | cons e es ih =>
    intro st0 st h
    rw [List.foldlM_cons] at h
    cases hpe : processEntry dn kn st0 e with
    | error err =>
      rw [hpe] at h
      have hbad : (Except.error err : Except String LoadState) = Except.ok st := h
      simp at hbad
    | ok st1 =>
      rw [hpe] at h
      have h' : List.foldlM (processEntry dn kn) st1 es = .ok st := h
      obtain ⟨added, ha1, ha2⟩ := ih st1 st h'
      rcases processEntry_classes_shape dn kn st0 e st1 hpe with hsame | ⟨c, happ, _⟩
      · refine ⟨added, by rw [ha1, hsame], ?_⟩
        rw [List.map_cons]
        exact ha2.cons e.1
      · refine ⟨(e.1, c) :: added, ?_, ?_⟩
        · rw [ha1, happ, List.append_assoc]
          rfl
        · rw [List.map_cons, List.map_cons]
          exact ha2.cons₂ e.1

/-- Claim C1 is refuted as stated: in a module whose only baseless class is
declared after a based class, `load` raises the "only one root class"
error even though no second baseless class exists. -/
theorem load_root_counterexample :
    load [] lateRootEntries =
      .error "Only one root class allowed, found second root A" ∧
    (lateRootEntries.filter (fun e => match e.2 with
      | .cls d => decide (d.bases = [])
      | .strList _ => false)).length = 1 := by
  refine ⟨by decide, by decide⟩

/-- Claim C1, amended: the root check compares against all previously
accepted classes, not only previously seen baseless ones. `load` raises
`Only one root class allowed, found second root <name>` at any class with
empty bases reached after at least one class (baseless or not) was already
accepted; consequently a successful load contains at most one baseless
class, but a schema whose only baseless class is preceded by a based class
is also rejected. -/
theorem load_root_rule (defsNames : List String) (entries : List (String × ModuleEntry)) :
    (∀ pre n d rest st c,
      entries = pre ++ (n, ModuleEntry.cls d) :: rest →
      loadRaw defsNames (mkKnown entries) pre = .ok st →
      st.classes ≠ [] →
      n ∉ defsNames → n ≠ "__includes" → pyStartsDunder n = false →
      _get_class d = .ok c → c.bases = [] →
      load defsNames entries =
        .error ("Only one root class allowed, found second root " ++ n)) ∧
    (∀ s, (entries.map Prod.fst).Nodup → load defsNames entries = .ok s →
      (s.classes.filter (fun q => decide (q.2.bases = []))).length ≤ 1) := by
  constructor
  · intro pre n d rest st c hent hpre hcls hdn hinc hdund hget hb
    subst hent
    have hproc : processEntry defsNames (mkKnown (pre ++ (n, ModuleEntry.cls d) :: rest)) st (n, .cls d) =
        .error ("Only one root class allowed, found second root " ++ n) := by
      rw [processEntry_cls _ _ _ _ _ hdn hinc hdund, hget]
      show (if st.classes ≠ [] ∧ c.bases = [] then
          (Except.error ("Only one root class allowed, found second root " ++ n) : Except String LoadState)
        else match c.check_types (mkKnown (pre ++ (n, ModuleEntry.cls d) :: rest)) with
          | Except.error err => Except.error err
          | Except.ok _ => Except.ok { st with classes := st.classes ++ [(n, c)] }) =
        Except.error ("Only one root class allowed, found second root " ++ n)
      rw [if_pos ⟨hcls, hb⟩]
    have hlr : loadRaw defsNames (mkKnown (pre ++ (n, ModuleEntry.cls d) :: rest))
        (pre ++ (n, ModuleEntry.cls d) :: rest) =
        .error ("Only one root class allowed, found second root " ++ n) :=
      loadRaw_append_error _ _ _ _ _ _ _ hpre hproc
    rw [load, hlr]
  · intro s hnd h
    rw [load] at h
    cases hlr : loadRaw defsNames (mkKnown entries) entries with
    | error e => rw [hlr] at h; simp at h
    | ok st =>
      rw [hlr] at h
      replace h : (match _toposort_classes_by_group st.classes with
        | Except.error e => Except.error e
        | Except.ok sorted => Except.ok { classes := sorted, includes := st.includes } :
          Except String Schema) = Except.ok s := h
      cases htp : _toposort_classes_by_group st.classes with
      | error e => rw [htp] at h; simp at h
      | ok sorted =>
        rw [htp] at h
        injection h with h2
        subst h2
        show (sorted.filter (fun q => decide (q.2.bases = []))).length ≤ 1
        rw [loadRaw] at hlr
        have hbound := loadFold_root_bound defsNames (mkKnown entries) entries {} st hlr
          (by simp)
        obtain ⟨added, ha1, ha2⟩ :=
          loadFold_keys_sublist defsNames (mkKnown entries) entries {} st hlr
        have hklnd : (keysA st.classes).Nodup := by
          rw [keysA, ha1]
          show ((([] : List (String × Class)) ++ added).map Prod.fst).Nodup
          rw [List.nil_append]
          exact ha2.nodup hnd
        have hperm := toposort_ok_perm st.classes sorted hklnd htp
        have := (hperm.filter (fun q => decide (q.2.bases = []))).length_eq
        rw [this]
        exact hbound

/-- Witness for `load_root_rule`: the counterexample module instantiates
the general root-error rule. -/
theorem load_root_rule_witness :
    load [] lateRootEntries =
      .error ("Only one root class allowed, found second root " ++ "A") :=
  (load_root_rule [] lateRootEntries).1 [("B", .cls lateRootB)] "A" lateRootA []
    { includes := [], classes := [("B", { name := "B", bases := ["A"] })] }
    { name := "A" } (by decide) (by decide) (by decide) (by decide) (by decide)
    (by decide) (by decide) (by decide)

/-! Order lemmas about the lexicographic comparison. -/

lemma charListLe_refl : ∀ l : List Char, charListLe l l = true := by
  intro l
  induction l with
  | nil => rfl
  | cons a as ih =>
    rw [charListLe]
    rw [if_neg (lt_irrefl a.toNat), if_neg (lt_irrefl a.toNat)]
    exact ih

lemma strLe_refl (s : String) : strLe s s = true := charListLe_refl s.data

lemma charListLe_total : ∀ a b : List Char, charListLe a b = true ∨ charListLe b a = true := by
  intro a
  induction a with
  | nil => intro b; exact Or.inl rfl
  | cons x xs ih =>
    intro b
    cases b with
    | nil => exact Or.inr rfl
    | cons y ys =>
      rcases Nat.lt_trichotomy x.toNat y.toNat with hlt | heq | hgt
      · left
        rw [charListLe, if_pos hlt]
      · rcases ih ys with h | h
        · left
          rw [charListLe, if_neg (by omega), if_neg (by omega)]
          exact h
        · right
          rw [charListLe, if_neg (by omega), if_neg (by omega)]
          exact h
      · right
        rw [charListLe, if_pos hgt]

lemma charListLe_trans : ∀ a b c : List Char,
    charListLe a b = true → charListLe b c = true → charListLe a c = true := by
  intro a
  induction a with
  | nil => intro b c _ _; rfl
  | cons x xs ih =>
    intro b c hab hbc
    cases b with
    | nil => rw [charListLe] at hab; exact absurd hab (by simp)
    | cons y ys =>
      cases c with
      | nil => rw [charListLe] at hbc; exact absurd hbc (by simp)
      | cons z zs =>
        rw [charListLe] at hab hbc
        by_cases hxy : x.toNat < y.toNat
        · by_cases hyz : y.toNat < z.toNat
          · rw [charListLe, if_pos (Nat.lt_trans hxy hyz)]
          · rw [if_neg hyz] at hbc
            by_cases hzy : z.toNat < y.toNat
            · rw [if_pos hzy] at hbc
              exact absurd hbc (by simp)
            · have : y.toNat = z.toNat := by omega
              rw [charListLe, if_pos (this ▸ hxy)]
        · rw [if_neg hxy] at hab
          by_cases hyx : y.toNat < x.toNat
          · rw [if_pos hyx] at hab
            exact absurd hab (by simp)
          · rw [if_neg hyx] at hab
            have hxyeq : x.toNat = y.toNat := by omega
            by_cases hyz : y.toNat < z.toNat
            · rw [charListLe, if_pos (hxyeq ▸ hyz)]
            · rw [if_neg hyz] at hbc
              by_cases hzy : z.toNat < y.toNat
              · rw [if_pos hzy] at hbc
                exact absurd hbc (by simp)
              · rw [if_neg hzy] at hbc
                rw [charListLe, if_neg (by omega), if_neg (by omega)]
                exact ih ys zs hab hbc

lemma strLe_trans (a b c : String) (h1 : strLe a b = true) (h2 : strLe b c = true) :
    strLe a c = true := charListLe_trans a.data b.data c.data h1 h2

lemma sortGroups_sorted (gs : List (String × List String)) :
    List.Pairwise (fun a b => strLe a.1 b.1 = true) (sortGroups gs) := by
  haveI : IsTotal (String × List String) (fun a b => strLe a.1 b.1 = true) :=
    ⟨fun a b => charListLe_total a.1.data b.1.data⟩
  haveI : IsTrans (String × List String) (fun a b => strLe a.1 b.1 = true) :=
    ⟨fun a b c => strLe_trans a.1 b.1 c.1⟩
  exact List.sorted_insertionSort _ gs

lemma sortGroups_perm (gs : List (String × List String)) :
    (sortGroups gs).Perm gs := List.perm_insertionSort _ gs

/-! The ordering facts of the grouped topological sorter (claim C2). -/

lemma map_fst_split {α β} : ∀ (l : List (α × β)) (s1 : List α) (x : α) (s2 : List α),
    l.map Prod.fst = s1 ++ x :: s2 →
    ∃ l1 p l2, l = l1 ++ p :: l2 ∧ l1.map Prod.fst = s1 ∧ p.1 = x ∧
      l2.map Prod.fst = s2 := by
  intro l
  induction l with
  | nil =>
    intro s1 x s2 h
    rw [List.map_nil] at h
    exact absurd h.symm (List.append_ne_nil_of_right_ne_nil _ (List.cons_ne_nil x s2))
  | cons p rest ih =>
    intro s1 x s2 h
    rw [List.map_cons] at h
    cases s1 with
    | nil =>
      rw [List.nil_append] at h
      injection h with h1 h2
      exact ⟨[], p, rest, rfl, rfl, h1, h2⟩
    | cons y s1' =>
      rw [List.cons_append] at h
      injection h with h1 h2
      obtain ⟨l1, p', l2, he, hm1, hp, hm2⟩ := ih s1' x s2 h2
      refine ⟨p :: l1, p', l2, by rw [he, List.cons_append], ?_, hp, hm2⟩
      rw [List.map_cons, hm1, h1]

lemma groupStep_order (classes : List (String × Class))
    (hnd : (keysA classes).Nodup) (hcl : GroupClosed classes) (hsf : SelfFree classes)
    (gl : String × List String)
    (hbk : gl.2 = (classes.filter (fun p => decide (p.2.group = gl.1))).map Prod.fst)
    (ret ret' : List (String × Class))
    (hI : BoundIn classes ret)
    (hfg : ∀ q ∈ ret, q.2.group ≠ gl.1)
    (h : groupStep classes ret gl = .ok ret') :
    ∃ added, ret' = ret ++ added ∧ BoundIn classes added ∧
      (added.map Prod.fst).Nodup ∧
      (∀ q ∈ added, q.2.group = gl.1) ∧
      (∀ q ∈ added, ∀ b ∈ q.2.bases, ∃ a1 a2, added = a1 ++ q :: a2 ∧
        ∃ cb, (b, cb) ∈ a1) := by
  have hB : ∀ n ∈ gl.2, ∃ cn, (n, cn) ∈ classes ∧ cn.group = gl.1 := by
    intro n hn
    rw [hbk] at hn
    rcases List.mem_map.mp hn with ⟨p, hp, rfl⟩
    rcases List.mem_filter.mp hp with ⟨hp1, hp2⟩
    have hpe : (p.1, p.2) = p := by
      rw [Prod.ext_iff]
      exact ⟨rfl, rfl⟩
    exact ⟨p.2, hpe ▸ hp1, by simpa using hp2⟩
  have hBnd : gl.2.Nodup := by
    rw [hbk]
    exact (List.Sublist.map Prod.fst (List.filter_sublist classes)).nodup hnd
  have hBmem : ∀ b cb, (b, cb) ∈ classes → cb.group = gl.1 → b ∈ gl.2 := by
    intro b cb hbc hg
    rw [hbk]
    exact List.mem_map_of_mem Prod.fst (List.mem_filter.mpr ⟨hbc, by simpa using hg⟩)
  have hinhk : keysA (groupInheritance classes gl) = gl.2 := keysA_groupInheritance _ _
  have hinh_entries : ∀ p ∈ groupInheritance classes gl,
      ∃ cn, (p.1, cn) ∈ classes ∧ cn.group = gl.1 ∧ p.2 = cn.bases ∧ p.1 ∈ gl.2 := by
    intro p hp
    rw [groupInheritance] at hp
    rcases List.mem_map.mp hp with ⟨n, hn, rfl⟩
    obtain ⟨cn, hcn, hg⟩ := hB n hn
    have hl : lookupA classes n = some cn := mem_lookupA hnd hcn
    refine ⟨cn, hcn, hg, ?_, hn⟩
    rw [hl]
  have hdeps : ∀ p ∈ groupInheritance classes gl, ∀ b ∈ p.2, b ∈ gl.2 ∧ b ≠ p.1 := by
    intro p hp b hb
    obtain ⟨cn, hcn, hg, hp2, _⟩ := hinh_entries p hp
    rw [hp2] at hb
    obtain ⟨cb, hcb, hcbg⟩ := hcl (p.1, cn) hcn b hb
    constructor
    · exact hBmem b cb hcb (by rw [hcbg]; exact hg)
    · intro hbp
      exact hsf (p.1, cn) hcn (hbp ▸ hb)
  rw [groupStep] at h
  cases htf : toposortFlatten (groupInheritance classes gl) with
  | error e =>
    rw [htf] at h
    simp at h
  | ok names =>
    rw [htf] at h
    have h' : insertClasses classes ret names = .ok ret' := h
    obtain ⟨htfm, htfnd⟩ := toposortFlatten_mem _ _ htf
    have hnm : ∀ x, x ∈ names ↔ x ∈ gl.2 := by
      intro x
      rw [htfm x, hinhk]
      constructor
      · rintro (h1 | ⟨p, hp, hx⟩)
        · exact h1
        · exact (hdeps p hp x hx).1
      · exact Or.inl
    have hnnd : names.Nodup := htfnd (hinhk ▸ hBnd)
    have hfresh : ∀ x ∈ names, x ∉ keysA ret := by
      intro x hx hxk
      obtain ⟨cx, hcx, hgx⟩ := hB x ((hnm x).mp hx)
      rcases List.mem_map.mp hxk with ⟨q, hq, rfl⟩
      have h1 : (q.1, q.2) ∈ classes := lookupA_mem (hI q hq)
      have h2 : (q.1, q.2) = (q.1, cx) :=
        entry_unique hnd h1 hcx rfl
      have : q.2 = cx := ((Prod.ext_iff).mp h2).2
      exact hfg q hq (by rw [this, hgx])
    have hlook : ∀ n ∈ names, ∃ c, lookupA classes n = some c := by
      intro n hn
      obtain ⟨cn, hcn, _⟩ := hB n ((hnm n).mp hn)
      exact ⟨cn, mem_lookupA hnd hcn⟩
    obtain ⟨added, ha1, ha2, ha3⟩ := insertClasses_fresh classes names ret hnnd hfresh hlook
    rw [ha1] at h'
    injection h' with h''
    have hkeysadded : (added.map Prod.fst).Nodup := by
      rw [ha2]
      exact hnnd
    have htags : ∀ q ∈ added, q.2.group = gl.1 := by
      intro q hq
      have hq1 : q.1 ∈ names := by
        rw [← ha2]
        exact List.mem_map_of_mem Prod.fst hq
      obtain ⟨c', hc', hg'⟩ := hB q.1 ((hnm q.1).mp hq1)
      have h1 : (q.1, q.2) ∈ classes := lookupA_mem (ha3 q hq)
      have h2 : (q.1, q.2) = (q.1, c') := entry_unique hnd h1 hc' rfl
      rw [((Prod.ext_iff).mp h2).2, hg']
    refine ⟨added, h''.symm, ha3, hkeysadded, htags, ?_⟩
    intro q hq b hb
    have hq1 : q.1 ∈ names := by
      rw [← ha2]
      exact List.mem_map_of_mem Prod.fst hq
    have hlq : lookupA classes q.1 = some q.2 := ha3 q hq
    have hqc : (q.1, q.2) ∈ classes := lookupA_mem hlq
    have hbne : b ≠ q.1 := by
      intro hbq
      exact hsf (q.1, q.2) hqc (hbq ▸ hb)
    have hpinh : (q.1, q.2.bases) ∈ groupInheritance classes gl := by
      rw [groupInheritance]
      refine List.mem_map.mpr ⟨q.1, (hnm q.1).mp hq1, ?_⟩
      rw [hlq]
    obtain ⟨n1, n2, hsplit, hbn1⟩ :=
      toposortFlatten_before _ _ (hinhk ▸ hBnd) htf (q.1, q.2.bases) hpinh b hb hbne
    obtain ⟨a1, p', a2, hadd, hm1, hp', hm2⟩ := map_fst_split added n1 q.1 n2 (by rw [ha2, hsplit])
    have haddnd : (keysA added).Nodup := by
      show (added.map Prod.fst).Nodup
      rw [ha2]
      exact hnnd
    have hp'q : p' = q := by
      refine entry_unique haddnd ?_ hq hp'
      rw [hadd]
      exact List.mem_append_right _ (List.mem_cons_self p' a2)
    obtain ⟨pb, hpb, hpb1⟩ := by
      rw [← hm1] at hbn1
      exact List.mem_map.mp hbn1
    refine ⟨a1, a2, by rw [hadd, hp'q], ⟨pb.2, ?_⟩⟩
    have : (pb.1, pb.2) = pb := by
      rw [Prod.ext_iff]
      exact ⟨rfl, rfl⟩
    rw [← hpb1, this]
    exact hpb

lemma groupsFold_order (classes : List (String × Class))
    (hnd : (keysA classes).Nodup) (hcl : GroupClosed classes) (hsf : SelfFree classes) :
    ∀ (gs : List (String × List String)) (ret out : List (String × Class)),
    (∀ gl ∈ gs, gl.2 = (classes.filter (fun p => decide (p.2.group = gl.1))).map Prod.fst) →
    List.Pairwise (fun a b => strLe a.1 b.1 = true) gs →
    (keysA gs).Nodup →
    BoundIn classes ret →
    List.Pairwise (fun a b => strLe a b = true) (ret.map (fun q => q.2.group)) →
    (∀ q ∈ ret, ∀ gl ∈ gs, strLe q.2.group gl.1 = true ∧ q.2.group ≠ gl.1) →
    (∀ q ∈ ret, ∀ b ∈ q.2.bases, ∃ l1 l2, ret = l1 ++ q :: l2 ∧ ∃ cb, (b, cb) ∈ l1) →
    groupsFold classes ret gs = .ok out →
    List.Pairwise (fun a b => strLe a b = true) (out.map (fun q => q.2.group)) ∧
    (∀ q ∈ out, ∀ b ∈ q.2.bases, ∃ l1 l2, out = l1 ++ q :: l2 ∧ ∃ cb, (b, cb) ∈ l1) := by
  intro gs
  induction gs with
  | nil =>
    intro ret out hbks hso hgnd hI hpw hmax hbef h
    have h' : Except.ok ret = Except.ok out := h
    injection h' with h2
    subst h2
    exact ⟨hpw, hbef⟩
  | cons gl rest ih =>
    intro ret out hbks hso hgnd hI hpw hmax hbef h
    rw [groupsFold] at h
    cases hs : groupStep classes ret gl with
    | error e => rw [hs] at h; simp at h
    | ok ret' =>
      rw [hs] at h
      have h' : groupsFold classes ret' rest = .ok out := h
      obtain ⟨added, hra, haI, hand, htags, habef⟩ :=
        groupStep_order classes hnd hcl hsf gl (hbks gl (List.mem_cons_self gl rest))
          ret ret' hI
          (fun q hq => (hmax q hq gl (List.mem_cons_self gl rest)).2) hs
      subst hra
      have hso' := List.pairwise_cons.mp hso
      have hgnd' : (keysA (gl :: rest)).Nodup := hgnd
      rw [keysA, List.map_cons, List.nodup_cons] at hgnd'
      refine ih (ret ++ added) out (fun g hg => hbks g (List.mem_cons_of_mem gl hg))
        hso'.2 hgnd'.2 ?_ ?_ ?_ ?_ h'
      · intro q hq
        rcases List.mem_append.mp hq with hq' | hq'
        · exact hI q hq'
        · exact haI q hq'
      · rw [List.map_append]
        refine List.pairwise_append.mpr ⟨hpw, ?_, ?_⟩
        · refine List.pairwise_of_forall_mem_list ?_
          intro a ha b hb
          rcases List.mem_map.mp ha with ⟨qa, hqa, rfl⟩
          rcases List.mem_map.mp hb with ⟨qb, hqb, rfl⟩
          rw [htags qa hqa, htags qb hqb]
          exact strLe_refl gl.1
        · intro a ha b hb
          rcases List.mem_map.mp ha with ⟨qa, hqa, rfl⟩
          rcases List.mem_map.mp hb with ⟨qb, hqb, rfl⟩
          rw [htags qb hqb]
          exact (hmax qa hqa gl (List.mem_cons_self gl rest)).1
      · intro q hq gl' hgl'
        rcases List.mem_append.mp hq with hq' | hq'
        · exact hmax q hq' gl' (List.mem_cons_of_mem gl hgl')
        · rw [htags q hq']
          constructor
          · exact hso'.1 gl' hgl'
          · intro heq
            exact hgnd'.1 (heq ▸ List.mem_map_of_mem Prod.fst hgl')
      · intro q hq b hb
        rcases List.mem_append.mp hq with hq' | hq'
        · obtain ⟨l1, l2, hsp, cb, hcb⟩ := hbef q hq' b hb
          refine ⟨l1, l2 ++ added, ?_, cb, hcb⟩
          rw [hsp, List.append_assoc, List.cons_append]
        · obtain ⟨a1, a2, hsp, cb, hcb⟩ := habef q hq' b hb
          refine ⟨ret ++ a1, a2, ?_, cb, List.mem_append_right _ hcb⟩
          rw [hsp, List.append_assoc]

lemma toposort_order (classes out : List (String × Class))
    (hnd : (keysA classes).Nodup) (hcl : GroupClosed classes) (hsf : SelfFree classes)
    (h : _toposort_classes_by_group classes = .ok out) :
    List.Pairwise (fun a b => strLe a b = true) (out.map (fun q => q.2.group)) ∧
    (∀ q ∈ out, ∀ b ∈ q.2.bases, ∃ l1 l2, out = l1 ++ q :: l2 ∧ ∃ cb, (b, cb) ∈ l1) := by
  rw [_toposort_classes_by_group] at h
  obtain ⟨hgnd, _, hgch⟩ := groupsOf_spec classes
  refine groupsFold_order classes hnd hcl hsf (sortGroups (groupsOf classes)) [] out
    ?_ (sortGroups_sorted _) ?_ ?_ ?_ ?_ ?_ h
  · intro gl hgl
    exact hgch gl ((sortGroups_perm _).mem_iff.mp hgl)
  · exact (((sortGroups_perm (groupsOf classes)).map Prod.fst).nodup_iff).mpr hgnd
  · intro q hq
    simp at hq
  · simp
  · intro q hq
    simp at hq
  · intro q hq
    simp at hq

/-- Claim C2 is refuted as stated: a schema that `load` accepts, in which a
class's base lives in a different group, comes out with its group tags in
the order `["", "b", "a"]`, which is not ascending. -/
theorem load_ordering_counterexample :
    (load [] crossEntries).map (fun s => s.classes.map (fun q => q.2.group)) =
      .ok ["", "b", "a"] ∧
    ¬ List.Pairwise (fun a b => strLe a b = true) ["", "b", "a"] := by
  refine ⟨by decide, by decide⟩

/-- Claim C2, amended: the ordering guarantee holds for schemas whose
inheritance is group-closed (every base belongs to the same group as the
deriving class) and self-free. Then the classes of one group are
consecutive, the groups appear in ascending lexicographic order of their
tag (equivalently, the tag sequence is pairwise nondecreasing), and within
a group every class appears strictly after each of its bases. -/
theorem load_ordering (defsNames : List String) (entries : List (String × ModuleEntry))
    (s : Schema) (hnd : (entries.map Prod.fst).Nodup)
    (h : load defsNames entries = .ok s)
    (hcl : ∀ q ∈ s.classes, ∀ b ∈ q.2.bases, ∃ cb, (b, cb) ∈ s.classes ∧
      cb.group = q.2.group)
    (hsf : ∀ q ∈ s.classes, q.1 ∉ q.2.bases) :
    List.Pairwise (fun a b => strLe a b = true) (s.classes.map (fun q => q.2.group)) ∧
    (∀ q ∈ s.classes, ∀ b ∈ q.2.bases, ∃ l1 l2, s.classes = l1 ++ q :: l2 ∧
      ∃ cb, (b, cb) ∈ l1) := by
  rw [load] at h
  cases hlr : loadRaw defsNames (mkKnown entries) entries with
  | error e => rw [hlr] at h; simp at h
  | ok st =>
    rw [hlr] at h
    replace h : (match _toposort_classes_by_group st.classes with
      | Except.error e => Except.error e
      | Except.ok sorted => Except.ok { classes := sorted, includes := st.includes } :
        Except String Schema) = Except.ok s := h
    cases htp : _toposort_classes_by_group st.classes with
    | error e => rw [htp] at h; simp at h
    | ok sorted =>
      rw [htp] at h
      injection h with h2
      subst h2
      rw [loadRaw] at hlr
      obtain ⟨added, ha1, ha2⟩ :=
        loadFold_keys_sublist defsNames (mkKnown entries) entries {} st hlr
      have hknd : (keysA st.classes).Nodup := by
        rw [keysA, ha1]
        show ((([] : List (String × Class)) ++ added).map Prod.fst).Nodup
        rw [List.nil_append]
        exact ha2.nodup hnd
      have hperm := toposort_ok_perm st.classes sorted hknd htp
      have hclst : GroupClosed st.classes := by
        intro q hq b hb
        obtain ⟨cb, hcb, hg⟩ := hcl q (hperm.mem_iff.mpr hq) b hb
        exact ⟨cb, hperm.mem_iff.mp hcb, hg⟩
      have hsfst : SelfFree st.classes := by
        intro q hq
        exact hsf q (hperm.mem_iff.mpr hq)
      exact toposort_order st.classes sorted hknd hclst hsfst htp

/-- Witness for `load_ordering`: the valid Root/Child schema is emitted
with bases before derived classes and nondecreasing group tags. -/
theorem load_ordering_witness :
    List.Pairwise (fun a b => strLe a b = true)
      ((([("Root", { name := "Root", derived := ["Child"] }), ("Child", { name := "Child", bases := ["Root"] })]) : List (String × Class)).map (fun q => q.2.group)) ∧
    (∀ q ∈ ([("Root", { name := "Root", derived := ["Child"] }), ("Child", { name := "Child", bases := ["Root"] })] : List (String × Class)), ∀ b ∈ q.2.bases,
      ∃ l1 l2, ([("Root", { name := "Root", derived := ["Child"] }), ("Child", { name := "Child", bases := ["Root"] })] : List (String × Class)) = l1 ++ q :: l2 ∧ ∃ cb, (b, cb) ∈ l1) := by
  refine load_ordering [] [("Root", .cls { name := "Root", subclasses := ["Child"] }), ("Child", .cls { name := "Child", bases := [{ name := "Root" }] })]
    { classes := [("Root", { name := "Root", derived := ["Child"] }), ("Child", { name := "Child", bases := ["Root"] })], includes := [] }
    (by decide) (by decide) ?_ (by decide)
  intro q hq b hb
  rcases List.mem_cons.mp hq with rfl | hq'
  · simp at hb
  · rcases List.mem_cons.mp hq' with rfl | hq''
    · have hbr : b = "Root" := by simpa using hb
      subst hbr
      refine ⟨{ name := "Root", derived := ["Child"] }, List.mem_cons_self _ _, rfl⟩
    · simp at hq''

end Schemapy
